import Mathlib

/-!
Verification of the forust statistical preprocessing core.

Shallow embedding of the quantile-binning, weighted-percentile, GOSS
row-sampling and objective-function subsystems of the forust crate
(`src/binning.rs`, `src/utils.rs`, `src/sampler.rs`, `src/objective.rs`),
together with theorems settling the specification's claims about them.

Floating-point values are idealised as an extended-rational type `F`:
`F.val q` stands for an ordinary finite float, `F.maxVal` for the largest
finite float (`T::MAX`, the sentinel boundary), `F.negInf`/`F.posInf` for
the infinities and `F.nan` for NaN.  Comparisons follow IEEE semantics:
every comparison involving NaN is false.  Rust panics (`unwrap`, `expect`,
out-of-bounds indexing, integer division by zero) are modelled by `Option`
(`none`) or by the `RRes.panicked` outcome.
-/

/-- Idealised floating-point value: NaN, -∞, an ordinary finite value,
the largest finite value (`T::MAX`), or +∞. -/
inductive F where
  | nan : F
  | negInf : F
  | val : ℚ → F
  | maxVal : F
  | posInf : F
deriving DecidableEq

/-- `is_nan`: true exactly on NaN (infinities are *not* NaN, mirroring
`f64::is_nan`, which is the filter used by `bin_matrix`). -/
def F.isNaN : F → Bool
  | .nan => true
  | _ => false

/-- IEEE `<=` on floats: any comparison involving NaN is false; otherwise
`-∞ ≤ finite ≤ MAX ≤ +∞` with finite values ordered as rationals. -/
def fle : F → F → Bool
  | .nan, _ => false
  | _, .nan => false
  | .negInf, _ => true
  | _, .negInf => false
  | .val a, .val b => a ≤ b
  | .val _, _ => true
  | .maxVal, .val _ => false
  | .maxVal, _ => true
  | .posInf, .posInf => true
  | .posInf, _ => false

/-- IEEE `<` on floats: any comparison involving NaN is false. -/
def flt : F → F → Bool
  | .nan, _ => false
  | _, .nan => false
  | .negInf, .negInf => false
  | .negInf, _ => true
  | _, .negInf => false
  | .val a, .val b => a < b
  | .val _, _ => true
  | .maxVal, .posInf => true
  | .maxVal, _ => false
  | .posInf, _ => false

/-- The total order used to model Rust's sorts.  It agrees with `fle` on
non-NaN values (NaN is placed least, but every sort in the source is only
ever applied to NaN-free data; on NaN data Rust's
`partial_cmp(..).unwrap()` comparator would panic). -/
def fleTot : F → F → Bool
  | .nan, _ => true
  | _, .nan => false
  | .negInf, _ => true
  | _, .negInf => false
  | .val a, .val b => a ≤ b
  | .val _, _ => true
  | _, .val _ => false
  | .maxVal, _ => true
  | _, .maxVal => false
  | .posInf, .posInf => true

/-- `fleTot` as a `Prop` relation, for use with `List.insertionSort`. -/
def rle (a b : F) : Prop := fleTot a b = true

instance : DecidableRel rle := fun a b => inferInstanceAs (Decidable (_ = true))

instance : IsTotal F rle := by
  constructor
  intro a b
  cases a <;> cases b <;> simp [rle, fleTot] <;> exact le_total _ _

instance : IsTrans F rle := by
  constructor
  intro a b c hab hbc
  cases a <;> cases b <;> cases c <;> simp [rle, fleTot] at * <;> exact le_trans hab hbc

/-- Stable sort of a list of floats by the (total, NaN-free) value order;
models `sort_unstable_by(|a, b| a.partial_cmp(b).unwrap())`.  (Instability
only permutes ties, which none of the proved properties depend on.) -/
def fsort (l : List F) : List F := List.insertionSort rle l

/-- The value order lifted to (value, weight) pairs; sorting the zipped
pairs models sorting an index vector by value and then reading
`v[idx[i]]` and `sample_weight[idx[i]]`. -/
def rleFst (p q : F × ℚ) : Prop := fleTot p.1 q.1 = true

instance : DecidableRel rleFst := fun a b => inferInstanceAs (Decidable (_ = true))

instance : IsTotal (F × ℚ) rleFst :=
  ⟨fun a b => (inferInstanceAs (IsTotal F rle)).total a.1 b.1⟩

instance : IsTrans (F × ℚ) rleFst :=
  ⟨fun _ _ _ hab hbc => (inferInstanceAs (IsTrans F rle)).trans _ _ _ hab hbc⟩

/-- `Vec::dedup`: remove *consecutive* duplicate elements. -/
def dedupConsec : List F → List F
  | [] => []
  | [a] => [a]
  | a :: b :: rest =>
    if a = b then dedupConsec (b :: rest) else a :: dedupConsec (b :: rest)

/-- The accumulation loop of `percentiles_nunique` (src/utils.rs lines
32-48), walking the (value, weight) pairs in sorted order.  State:
current value, running cumulative mass, current pending fraction,
remaining fractions, the `drained_pcts` flag, emitted boundaries
(reversed accumulator) and the distinct-value count. -/
def pnLoop (total : ℚ) :
    List (F × ℚ) → F → ℚ → ℚ → List ℚ → Bool → List F → Int → List F × Int
  | [], _, _, _, _, _, acc, nu => (acc.reverse, nu)
  | (x, wt) :: rest, curVal, pctCnt, curPct, pending, drained, acc, nu =>
    let nu' : Int := if x = curVal then nu else nu + 1
    let pctCnt' := pctCnt + wt / total
    if drained then
      pnLoop total rest x pctCnt' curPct pending true acc nu'
    else
      if curPct = 0 ∨ pctCnt' ≥ curPct then
        match pending with
        | [] => pnLoop total rest x pctCnt' curPct [] true (x :: acc) nu'
        | p :: ps => pnLoop total rest x pctCnt' p ps false (x :: acc) nu'
      else
        pnLoop total rest x pctCnt' curPct pending false acc nu'

/-- `percentiles_nunique` (src/utils.rs lines 12-50): weighted-percentile
boundaries plus distinct-value count.  `none` models the Rust panics:
an empty fraction list (`expect("No percentiles were provided")`), an
empty value vector (`v[idx[0]]` out of bounds), or a weight vector
shorter than the value vector (`sample_weights[idx[i]]` out of bounds).
The running mass divides by the sum of the *entire* weight vector, as the
source does. -/
def percentiles_nunique (v : List F) (w : List ℚ) (pcts : List ℚ) :
    Option (List F × Int) :=
  if w.length < v.length then none
  else
    match pcts with
    | [] => none
    | cp :: restPcts =>
      match List.insertionSort rleFst (v.zip w) with
      | [] => none
      | (x0, w0) :: tail =>
        some (pnLoop w.sum ((x0, w0) :: tail) x0 0 cp restPcts false [] 1)

/-- Modelled from the spec: the `percentiles` helper imported by
src/binning.rs is not under src/; per spec §2 ("WeightedPercentile ...
returns boundary values at requested cumulative-weight fractions") and
its use site it is the boundary-only projection of `percentiles_nunique`
(the distinct count is dropped; `bin_matrix` records cut-table lengths
instead). -/
def percentiles (v : List F) (w : List ℚ) (pcts : List ℚ) : Option (List F) :=
  (percentiles_nunique v w pcts).map Prod.fst

/-- `percentiles_or_value` (src/binning.rs lines 11-23): if there are at
most `pcts.length + 1` distinct values, return the sorted distinct values
themselves, otherwise compute weighted percentiles. -/
def percentiles_or_value (v : List F) (w : List ℚ) (pcts : List ℚ) :
    Option (List F) :=
  let v_u := dedupConsec (fsort v)
  if v_u.length ≤ pcts.length + 1 then some v_u else percentiles v w pcts

/-- The binary-search loop of `first_greater_than` (src/utils.rs lines
55-70): shrink `[low, high)` keeping `x[i] <= v` true below `low` and
false from `high` on.  Every comparison against NaN is false, so a NaN
probe always moves `high` down and the search lands on 0.  The loop
`while low != high` terminates because `high - low` strictly decreases;
the structural `fuel` argument makes that explicit, and any
`fuel ≥ high - low` (as supplied by `first_greater_than`) is beyond the
number of iterations, so the fuel-exhaustion branch is unreachable. -/
def fgtAux (x : List F) (v : F) : ℕ → ℕ → ℕ → ℕ
  | 0, low, _ => low
  | fuel + 1, low, high =>
    if low < high then
      if fle (x.getD ((low + high) / 2) F.nan) v then
        fgtAux x v fuel ((low + high) / 2 + 1) high
      else fgtAux x v fuel low ((low + high) / 2)
    else low

/-- `first_greater_than` (src/utils.rs lines 55-70): index of the first
element of `x` strictly greater than `v`; 0 for NaN. -/
def first_greater_than (x : List F) (v : F) : ℕ := fgtAux x v x.length 0 x.length

/-- Modelled from the spec: `map_bin` is imported by src/binning.rs from
the crate's utils but is not under src/.  Per spec §4.2 step 6 it maps a
value to its bin via the boundary search, and the unwrap comment in
`bin_matrix_from_cuts` ("always smaller than u16::MAX") together with the
repository's own `test_bin_data` round-trip test (bin `k` counts values
in `[cuts[k-1], cuts[k])`, bin 0 for missing) pin it as the checked
`u16` conversion of `first_greater_than`. -/
def map_bin (x : List F) (v : F) : Option ℕ :=
  if first_greater_than x v ≤ 65535 then some (first_greater_than x v) else none

/-- Modelled from the spec: the `Matrix` type (crate's data module, not
under src/).  Spec §3: a rectangular buffer stored column-contiguous,
column `c` row `r` at offset `c*rows + r`, with `data.len() = rows*cols`. -/
structure MatrixF where
  data : List F
  rows : ℕ
  cols : ℕ
deriving DecidableEq

/-- `Matrix::get_col`: the contiguous slice of column `i`. -/
def MatrixF.get_col (m : MatrixF) (i : ℕ) : List F :=
  (m.data.drop (i * m.rows)).take m.rows

/-- Modelled from the spec: the crate's error enum (errors module, not
under src/).  Spec §7 names the variants relevant to this core:
`NoVariance` and `ParseString` (offending value, enum name, accepted
values). -/
inductive ForustError where
  | NoVariance : ForustError
  | ParseString : String → String → List String → ForustError
deriving DecidableEq

/-- Outcome of running a Rust function that may panic or return
`Result`: a panic, a typed error, or a success value. -/
inductive RRes (α : Type) where
  | panicked : RRes α
  | err : ForustError → RRes α
  | ok : α → RRes α
deriving DecidableEq

/-- `BinnedData` (src/binning.rs lines 37-41). -/
structure BinnedData where
  binned_data : List ℕ
  cuts : List (List F)
  nunique : List ℕ
deriving DecidableEq

/-- The evenly spaced target fractions `{i/nbins | i < nbins}` built at
the top of `bin_matrix` (src/binning.rs lines 74-79). -/
def pctTargets (nbins : ℕ) : List ℚ :=
  (List.range nbins).map fun i : ℕ => (i : ℚ) / (nbins : ℚ)

/-- One column's final cut table (src/binning.rs lines 86-94): filter out
NaN entries, take percentiles-or-distinct-values, push `T::MAX`, dedup. -/
def colCuts (m : MatrixF) (w : List ℚ) (pcts : List ℚ) (i : ℕ) :
    Option (List F) :=
  let no_miss := (m.get_col i).filter fun v => ! v.isNaN
  (percentiles_or_value no_miss w pcts).map fun cc => dedupConsec (cc ++ [F.maxVal])

/-- The per-column loop of `bin_matrix` (src/binning.rs lines 85-102):
compute each column's cuts in order, aborting with `NoVariance` as soon
as a cut table has fewer than 3 entries, and record the cut-table length
as that column's `nunique` entry. -/
def collectCuts (m : MatrixF) (w : List ℚ) (pcts : List ℚ) :
    List ℕ → RRes (List (List F) × List ℕ)
  | [] => .ok ([], [])
  | i :: rest =>
    match colCuts m w pcts i with
    | none => .panicked
    | some cc =>
      if cc.length < 3 then .err .NoVariance
      else
        match collectCuts m w pcts rest with
        | .ok (cs, nus) => .ok (cc :: cs, cc.length :: nus)
        | .err e => .err e
        | .panicked => .panicked

/-- The entry-binning recursion of `bin_matrix_from_cuts`
(src/binning.rs lines 48-62): entry at flat offset `k` belongs to column
`k / rows` and is mapped through `map_bin`; a failed `unwrap` (bin above
`u16::MAX`) is a panic. -/
def binEntriesAux (cuts : List (List F)) (rows : ℕ) : List F → ℕ → Option (List ℕ)
  | [], _ => some []
  | x :: xs, k =>
    match map_bin (cuts.getD (k / rows) []) x, binEntriesAux cuts rows xs (k + 1) with
    | some b, some bs => some (b :: bs)
    | _, _ => none

/-- `bin_matrix_from_cuts` (src/binning.rs lines 48-62). -/
def bin_matrix_from_cuts (m : MatrixF) (cuts : List (List F)) : Option (List ℕ) :=
  binEntriesAux cuts m.rows m.data 0

/-- `bin_matrix` (src/binning.rs lines 69-111). -/
def bin_matrix (m : MatrixF) (w : List ℚ) (nbins : ℕ) : RRes BinnedData :=
  match collectCuts m w (pctTargets nbins) (List.range m.cols) with
  | .panicked => .panicked
  | .err e => .err e
  | .ok (cuts, nus) =>
    match bin_matrix_from_cuts m cuts with
    | none => .panicked
    | some bd => .ok ⟨bd, cuts, nus⟩

/-- The comparator of the GOSS sort (src/sampler.rs line 117): position
`i` precedes position `j` when `|grad[j]| <= |grad[i]|` (descending
absolute gradient, `total_cmp` total order). -/
def gossRel (grad : List ℚ) (i j : ℕ) : Prop :=
  |grad.getD j 0| ≤ |grad.getD i 0|

instance (grad : List ℚ) : DecidableRel (gossRel grad) := fun _ _ =>
  inferInstanceAs (Decidable (_ ≤ _))

instance (grad : List ℚ) : IsTotal ℕ (gossRel grad) :=
  ⟨fun a b => le_total _ _⟩

instance (grad : List ℚ) : IsTrans ℕ (gossRel grad) :=
  ⟨fun _ _ _ hab hbc => le_trans hbc hab⟩

/-- The random-retention loop of `GossSampler::sample` (src/sampler.rs
lines 124-129): walk the non-top positions in sorted order, keeping each
one whose uniform draw is below the threshold.  `draws k` is the k-th
value produced by the rng stream. -/
def pickRandom (sub : ℚ) (draws : ℕ → ℚ) : List ℕ → ℕ → List ℕ
  | [], _ => []
  | i :: rest, k =>
    if draws k < sub then i :: pickRandom sub draws rest (k + 1)
    else pickRandom sub draws rest (k + 1)

/-- The random-retention threshold exactly as the source computes it
(src/sampler.rs line 123): `(randN / (index.len() - topN)) as f64`, a
*usize* (natural-number) division cast to float afterwards. -/
def gossSubsample (a b : ℚ) (n : ℕ) : ℚ :=
  ((⌊b * (n : ℚ)⌋₊ / (n - ⌊a * (n : ℚ)⌋₊) : ℕ) : ℚ)

/-- Following the spec's words (§4.3), for comparison with
`gossSubsample`: each remaining row is included "with probability
`⌊b·N⌋ / (N - ⌊a·N⌋)`", i.e. the ratio taken over the rationals. -/
def specGossThreshold (a b : ℚ) (n : ℕ) : ℚ :=
  ((⌊b * (n : ℚ)⌋₊ : ℚ)) / ((n : ℚ) - (⌊a * (n : ℚ)⌋₊ : ℚ))

/-- `GossSampler::sample` (src/sampler.rs lines 104-140).  Cast
truncation of `(self.a * index.len() as f64) as usize` is `Nat.floor`.
Returns `none` for the `usize` division-by-zero panic when
`index.len() - topN == 0` (which in Rust aborts before the gradient and
hessian buffers are touched); otherwise returns the (chosen, excluded)
sets and the updated gradient and hessian buffers. -/
def gossSample (a b : ℚ) (draws : ℕ → ℚ) (index : List ℕ)
    (grad hess : List ℚ) : Option (List ℕ × List ℕ × List ℚ × List ℚ) :=
  let fact : ℚ := (1 - a) / b
  let n := index.length
  let topN := ⌊a * (n : ℚ)⌋₊
  let sorted := List.insertionSort (gossRel grad) (List.range n)
  let topSet := sorted.take topN
  if n - topN = 0 then none
  else
    let subsample := gossSubsample a b n
    let randomSet := pickRandom subsample draws (sorted.drop topN) 0
    let usedSet := topSet ++ randomSet
    let grad2 := randomSet.foldl (fun g i => g.set i (g.getD i 0 * fact)) grad
    let hess2 := randomSet.foldl (fun g i => g.set i (g.getD i 0 * fact)) hess
    some (usedSet, [], grad2, hess2)

/-- The logistic transform applied to raw scores in `LogLoss`
(src/objective.rs line 55): `1 / (1 + exp(-x))`. -/
noncomputable def sigmaFn (x : ℝ) : ℝ := 1 / (1 + Real.exp (-x))

namespace LogLoss

/-- `LogLoss::calc_grad` (src/objective.rs lines 49-59): per-row
`(σ(yhat) - y) * weight` over zipped labels, predictions and weights. -/
noncomputable def calc_grad (y yhat sample_weight : List ℝ) : List ℝ :=
  ((y.zip yhat).zip sample_weight).map fun p => (sigmaFn p.1.2 - p.1.1) * p.2

/-- `LogLoss::calc_hess` (src/objective.rs lines 60-69). -/
noncomputable def calc_hess (yhat sample_weight : List ℝ) : List ℝ :=
  (yhat.zip sample_weight).map fun p => sigmaFn p.1 * (1 - sigmaFn p.1) * p.2

end LogLoss

/-- Finiteness of a modelled float: ordinary values and `T::MAX` are
finite; NaN and the infinities are not. -/
def F.isFinite : F → Bool
  | .val _ => true
  | .maxVal => true
  | _ => false

/-- Following the spec's words (§3), for comparison with the `nunique`
field the code actually fills: the "per-column count of distinct finite
values" observed in a column. -/
def distinctFiniteCount (col : List F) : ℕ :=
  ((col.filter fun v => v.isFinite).dedup).length

/-! ## Basic comparison lemmas -/

@[simp] theorem F.nan_ne_negInf : F.nan ≠ F.negInf := fun h => F.noConfusion h

@[simp] theorem F.nan_ne_val (r : ℚ) : F.nan ≠ F.val r := fun h => F.noConfusion h

@[simp] theorem F.nan_ne_maxVal : F.nan ≠ F.maxVal := fun h => F.noConfusion h

@[simp] theorem F.nan_ne_posInf : F.nan ≠ F.posInf := fun h => F.noConfusion h

@[simp] theorem F.negInf_ne_nan : F.negInf ≠ F.nan := fun h => F.noConfusion h

@[simp] theorem F.negInf_ne_val (r : ℚ) : F.negInf ≠ F.val r := fun h => F.noConfusion h

@[simp] theorem F.negInf_ne_maxVal : F.negInf ≠ F.maxVal := fun h => F.noConfusion h

@[simp] theorem F.negInf_ne_posInf : F.negInf ≠ F.posInf := fun h => F.noConfusion h

@[simp] theorem F.val_ne_nan (q : ℚ) : F.val q ≠ F.nan := fun h => F.noConfusion h

@[simp] theorem F.val_ne_negInf (q : ℚ) : F.val q ≠ F.negInf := fun h => F.noConfusion h

@[simp] theorem F.val_ne_maxVal (q : ℚ) : F.val q ≠ F.maxVal := fun h => F.noConfusion h

@[simp] theorem F.val_ne_posInf (q : ℚ) : F.val q ≠ F.posInf := fun h => F.noConfusion h

@[simp] theorem F.maxVal_ne_nan : F.maxVal ≠ F.nan := fun h => F.noConfusion h

@[simp] theorem F.maxVal_ne_negInf : F.maxVal ≠ F.negInf := fun h => F.noConfusion h

@[simp] theorem F.maxVal_ne_val (r : ℚ) : F.maxVal ≠ F.val r := fun h => F.noConfusion h

@[simp] theorem F.maxVal_ne_posInf : F.maxVal ≠ F.posInf := fun h => F.noConfusion h

@[simp] theorem F.posInf_ne_nan : F.posInf ≠ F.nan := fun h => F.noConfusion h

@[simp] theorem F.posInf_ne_negInf : F.posInf ≠ F.negInf := fun h => F.noConfusion h

@[simp] theorem F.posInf_ne_val (r : ℚ) : F.posInf ≠ F.val r := fun h => F.noConfusion h

@[simp] theorem F.posInf_ne_maxVal : F.posInf ≠ F.maxVal := fun h => F.noConfusion h

theorem fle_eq_fleTot {a b : F} (ha : a.isNaN = false) (hb : b.isNaN = false) :
    fle a b = fleTot a b := by
  cases a <;> cases b <;> simp [F.isNaN] at * <;> rfl

theorem fle_trans {a b c : F} (hab : fle a b = true) (hbc : fle b c = true) :
    fle a c = true := by
  cases a <;> cases b <;> cases c <;> simp [fle] at * <;> exact le_trans hab hbc

theorem fle_total_of_not_nan {a b : F} (ha : a.isNaN = false) (hb : b.isNaN = false) :
    fle a b = true ∨ fle b a = true := by
  cases a <;> cases b <;> simp [F.isNaN, fle] at * <;> exact le_total _ _

theorem flt_of_not_fle {a b : F} (ha : a.isNaN = false) (hb : b.isNaN = false)
    (h : ¬ fle b a = true) : flt a b = true := by
  cases a <;> cases b <;> simp [F.isNaN, fle, flt] at * <;> linarith

theorem fle_nan_right (a : F) : fle a F.nan = false := by
  cases a <;> rfl

theorem not_isNaN_of_fle_left {a b : F} (h : fle a b = true) : b.isNaN = false := by
  cases a <;> cases b <;> simp_all [fle, F.isNaN]

theorem fle_refl_of_not_nan {a : F} (ha : a.isNaN = false) : fle a a = true := by
  cases a <;> simp_all [fle, F.isNaN]

theorem fle_maxVal_of_ne_posInf {a : F} (ha : a.isNaN = false) (hp : a ≠ F.posInf) :
    fle a F.maxVal = true := by
  cases a <;> simp_all [fle, F.isNaN]

/-! ## Binary-search characterisation -/

/-- If every probe comparison fails (as it does for a NaN needle), the
search never moves `low` and returns its initial value. -/
theorem fgtAux_of_all_false {x : List F} {v : F}
    (h : ∀ i, fle (x.getD i F.nan) v = false) :
    ∀ fuel low high, fgtAux x v fuel low high = low := by
  intro fuel
  induction fuel with
  | zero => intro low high; rfl
  | succ fuel ih =>
    intro low high
    simp only [fgtAux]
    by_cases hlh : low < high
    · simp only [hlh, if_true, h ((low + high) / 2), Bool.false_eq_true, if_false]
      exact ih low ((low + high) / 2)
    · simp [hlh]

/-- Bracketing property of the binary search: with enough fuel, on a
probe-monotone list the result `r` splits `[low, high)` into a prefix of
successful comparisons and a suffix of failures. -/
theorem fgtAux_spec {x : List F} {v : F}
    (hmono : ∀ i j, i ≤ j → j < x.length → fle (x.getD j F.nan) v = true →
      fle (x.getD i F.nan) v = true) :
    ∀ fuel low high, high - low ≤ fuel → low ≤ high → high ≤ x.length →
      low ≤ fgtAux x v fuel low high ∧ fgtAux x v fuel low high ≤ high ∧
      (∀ i, low ≤ i → i < fgtAux x v fuel low high → fle (x.getD i F.nan) v = true) ∧
      (∀ i, fgtAux x v fuel low high ≤ i → i < high → fle (x.getD i F.nan) v = false) := by
  intro fuel
  induction fuel with
  | zero =>
    intro low high hfuel hlh _
    have : low = high := by omega
    subst this
    simp only [fgtAux]
    exact ⟨le_refl _, le_refl _, fun i h1 h2 => absurd h2 (by omega),
      fun i h1 h2 => absurd h2 (by omega)⟩
  | succ fuel ih =>
    intro low high hfuel hlh hhx
    by_cases hlt : low < high
    · have hmlow : low ≤ (low + high) / 2 := by omega
      have hmhigh : (low + high) / 2 < high := by omega
      cases hcmp : fle (x.getD ((low + high) / 2) F.nan) v with
      | true =>
        have hstep : fgtAux x v (fuel + 1) low high =
            fgtAux x v fuel ((low + high) / 2 + 1) high := by
          simp only [fgtAux]
          rw [if_pos hlt, if_pos hcmp]
        rw [hstep]
        obtain ⟨h1, h2, h3, h4⟩ := ih ((low + high) / 2 + 1) high (by omega) (by omega) hhx
        refine ⟨by omega, h2, ?_, h4⟩
        intro i hi1 hi2
        by_cases hile : i ≤ (low + high) / 2
        · exact hmono i ((low + high) / 2) hile (by omega) hcmp
        · exact h3 i (by omega) hi2
      | false =>
        have hstep : fgtAux x v (fuel + 1) low high =
            fgtAux x v fuel low ((low + high) / 2) := by
          simp only [fgtAux]
          rw [if_pos hlt, if_neg (by rw [hcmp]; exact Bool.noConfusion)]
        rw [hstep]
        obtain ⟨h1, h2, h3, h4⟩ := ih low ((low + high) / 2) (by omega) (by omega) (by omega)
        refine ⟨h1, by omega, h3, ?_⟩
        intro i hi1 hi2
        by_cases him : i < (low + high) / 2
        · exact h4 i hi1 him
        · by_cases hieq : i = (low + high) / 2
          · rw [hieq]; exact hcmp
          · by_contra hc
            have hci : fle (x.getD i F.nan) v = true := by
              revert hc
              cases fle (x.getD i F.nan) v <;> simp
            have := hmono ((low + high) / 2) i (by omega) (by omega) hci
            rw [this] at hcmp
            exact Bool.noConfusion hcmp
    · have hstep : fgtAux x v (fuel + 1) low high = low := by
        simp only [fgtAux]
        rw [if_neg hlt]
      rw [hstep]
      have : low = high := by omega
      subst this
      exact ⟨le_refl _, le_refl _, fun i h1 h2 => absurd h2 (by omega),
        fun i h1 h2 => absurd h2 (by omega)⟩

/-- `first_greater_than` on a `fle`-pairwise-sorted list: everything
before the result satisfies `x[i] <= v`, everything from it on fails. -/
theorem first_greater_than_spec {x : List F} {v : F}
    (hsorted : List.Pairwise (fun a b => fle a b = true) x) :
    first_greater_than x v ≤ x.length ∧
    (∀ i, i < first_greater_than x v → fle (x.getD i F.nan) v = true) ∧
    (∀ i, first_greater_than x v ≤ i → i < x.length →
      fle (x.getD i F.nan) v = false) := by
  have hmono : ∀ i j, i ≤ j → j < x.length → fle (x.getD j F.nan) v = true →
      fle (x.getD i F.nan) v = true := by
    intro i j hij hj hfle
    rcases Nat.eq_or_lt_of_le hij with rfl | hlt
    · exact hfle
    · have hi : i < x.length := lt_trans hlt hj
      have hpair : fle (x.getD i F.nan) (x.getD j F.nan) = true := by
        have := List.pairwise_iff_getElem.mp hsorted i j hi hj hlt
        simpa [List.getD_eq_getElem?_getD, List.getElem?_eq_getElem, hi, hj] using this
      exact fle_trans hpair hfle
  obtain ⟨h1, h2, h3, h4⟩ :=
    fgtAux_spec hmono x.length 0 x.length (by omega) (by omega) (le_refl _)
  exact ⟨h2, fun i hi => h3 i (Nat.zero_le i) hi, h4⟩

/-- A NaN needle binary-searches to 0 (src/utils.rs comment lines 60-62:
"This will always be false for NaNs ... and thus Zero"). -/
theorem first_greater_than_nan (x : List F) : first_greater_than x F.nan = 0 :=
  fgtAux_of_all_false (fun i => fle_nan_right _) x.length 0 x.length

/-! ## Dedup and sort lemmas -/

theorem dedupConsec_sublist : ∀ l : List F, (dedupConsec l).Sublist l := by
  intro l
  induction l with
  | nil => simp [dedupConsec]
  | cons a t ih =>
    cases t with
    | nil => simp [dedupConsec]
    | cons b t' =>
      simp only [dedupConsec]
      by_cases hab : a = b
      · rw [if_pos hab]
        exact (ih : (dedupConsec (b :: t')).Sublist (b :: t')).cons a
      · rw [if_neg hab]
        exact (ih : (dedupConsec (b :: t')).Sublist (b :: t')).cons₂ a

theorem dedupConsec_head? : ∀ l : List F, l ≠ [] → (dedupConsec l).head? = l.head? := by
  intro l
  induction l with
  | nil => intro h; exact absurd rfl h
  | cons a t ih =>
    intro _
    cases t with
    | nil => simp [dedupConsec]
    | cons b t' =>
      simp only [dedupConsec]
      by_cases hab : a = b
      · rw [if_pos hab, ih (by simp)]
        simp [hab]
      · rw [if_neg hab]
        simp

theorem dedupConsec_ne_nil : ∀ l : List F, l ≠ [] → dedupConsec l ≠ [] := by
  intro l hl
  intro hcontra
  have := dedupConsec_head? l hl
  rw [hcontra] at this
  cases l with
  | nil => exact hl rfl
  | cons a t => simp at this

theorem fsort_sorted (l : List F) :
    List.Pairwise (fun a b => fleTot a b = true) (fsort l) :=
  List.sorted_insertionSort rle l

theorem fsort_perm (l : List F) : (fsort l).Perm l :=
  List.perm_insertionSort rle l

/-! ## Percentile-loop lemmas -/

/-- The emitted boundaries extend the accumulator by a sublist of the
walked values: each iteration pushes at most its own value. -/
theorem pnLoop_fst_append (total : ℚ) :
    ∀ (pairs : List (F × ℚ)) curVal pctCnt curPct pending drained acc nu,
      ∃ s : List F, s.Sublist (pairs.map Prod.fst) ∧
        (pnLoop total pairs curVal pctCnt curPct pending drained acc nu).1 =
          acc.reverse ++ s := by
  intro pairs
  induction pairs with
  | nil =>
    intro curVal pctCnt curPct pending drained acc nu
    exact ⟨[], List.Sublist.refl _, by simp [pnLoop]⟩
  | cons hd rest ih =>
    obtain ⟨x, wt⟩ := hd
    intro curVal pctCnt curPct pending drained acc nu
    cases drained with
    | true =>
      rw [show pnLoop total ((x, wt) :: rest) curVal pctCnt curPct pending true acc nu =
        pnLoop total rest x (pctCnt + wt / total) curPct pending true acc
          (if x = curVal then nu else nu + 1) from by simp [pnLoop]]
      obtain ⟨s, hs, heq⟩ := ih x _ curPct pending true acc _
      exact ⟨s, hs.cons _, heq⟩
    | false =>
      by_cases hcond : curPct = 0 ∨ pctCnt + wt / total ≥ curPct
      · cases pending with
        | nil =>
          rw [show pnLoop total ((x, wt) :: rest) curVal pctCnt curPct [] false acc nu =
            pnLoop total rest x (pctCnt + wt / total) curPct [] true (x :: acc)
              (if x = curVal then nu else nu + 1) from by simp [pnLoop, hcond]]
          obtain ⟨s, hs, heq⟩ := ih x _ curPct [] true (x :: acc) _
          refine ⟨x :: s, hs.cons₂ x, ?_⟩
          rw [heq]
          simp
        | cons p ps =>
          rw [show pnLoop total ((x, wt) :: rest) curVal pctCnt curPct (p :: ps) false acc nu =
            pnLoop total rest x (pctCnt + wt / total) p ps false (x :: acc)
              (if x = curVal then nu else nu + 1) from by simp [pnLoop, hcond]]
          obtain ⟨s, hs, heq⟩ := ih x _ p ps false (x :: acc) _
          refine ⟨x :: s, hs.cons₂ x, ?_⟩
          rw [heq]
          simp
      · rw [show pnLoop total ((x, wt) :: rest) curVal pctCnt curPct pending false acc nu =
          pnLoop total rest x (pctCnt + wt / total) curPct pending false acc
            (if x = curVal then nu else nu + 1) from by simp [pnLoop, hcond]]
        obtain ⟨s, hs, heq⟩ := ih x _ curPct pending false acc _
        exact ⟨s, hs.cons x, heq⟩

/-- The emitted list never shrinks below the accumulator already built. -/
theorem pnLoop_acc_le (total : ℚ) (pairs : List (F × ℚ))
    (curVal : F) (pctCnt curPct : ℚ) (pending : List ℚ) (drained : Bool)
    (acc : List F) (nu : Int) :
    acc.length ≤ (pnLoop total pairs curVal pctCnt curPct pending drained acc nu).1.length := by
  obtain ⟨s, _, heq⟩ := pnLoop_fst_append total pairs curVal pctCnt curPct pending drained acc nu
  rw [heq]
  simp

/-- At most one boundary per pending fraction (plus the current one) is
ever emitted. -/
theorem pnLoop_length_le (total : ℚ) :
    ∀ (pairs : List (F × ℚ)) curVal pctCnt curPct pending drained acc nu,
      (pnLoop total pairs curVal pctCnt curPct pending drained acc nu).1.length ≤
        acc.length + (if drained = true then 0 else pending.length + 1) := by
  intro pairs
  induction pairs with
  | nil =>
    intro curVal pctCnt curPct pending drained acc nu
    simp [pnLoop]
  | cons hd rest ih =>
    obtain ⟨x, wt⟩ := hd
    intro curVal pctCnt curPct pending drained acc nu
    cases drained with
    | true =>
      rw [show pnLoop total ((x, wt) :: rest) curVal pctCnt curPct pending true acc nu =
        pnLoop total rest x (pctCnt + wt / total) curPct pending true acc
          (if x = curVal then nu else nu + 1) from by simp [pnLoop]]
      exact ih x _ curPct pending true acc _
    | false =>
      by_cases hcond : curPct = 0 ∨ pctCnt + wt / total ≥ curPct
      · cases pending with
        | nil =>
          rw [show pnLoop total ((x, wt) :: rest) curVal pctCnt curPct [] false acc nu =
            pnLoop total rest x (pctCnt + wt / total) curPct [] true (x :: acc)
              (if x = curVal then nu else nu + 1) from by simp [pnLoop, hcond]]
          have := ih x (pctCnt + wt / total) curPct [] true (x :: acc)
            (if x = curVal then nu else nu + 1)
          simp at this ⊢
          omega
        | cons p ps =>
          rw [show pnLoop total ((x, wt) :: rest) curVal pctCnt curPct (p :: ps) false acc nu =
            pnLoop total rest x (pctCnt + wt / total) p ps false (x :: acc)
              (if x = curVal then nu else nu + 1) from by simp [pnLoop, hcond]]
          have := ih x (pctCnt + wt / total) p ps false (x :: acc)
            (if x = curVal then nu else nu + 1)
          simp at this ⊢
          omega
      · rw [show pnLoop total ((x, wt) :: rest) curVal pctCnt curPct pending false acc nu =
          pnLoop total rest x (pctCnt + wt / total) curPct pending false acc
            (if x = curVal then nu else nu + 1) from by simp [pnLoop, hcond]]
        exact ih x _ curPct pending false acc _

/-- Emission guarantee: while fractions are still pending, if the mass
still to be accumulated reaches the current target (or the target is 0),
at least one more boundary is emitted by the end of the walk. -/
theorem pnLoop_emits (total : ℚ) :
    ∀ (pairs : List (F × ℚ)) curVal pctCnt curPct pending acc nu,
      pairs ≠ [] →
      (curPct = 0 ∨ pctCnt + (pairs.map Prod.snd).sum / total ≥ curPct) →
      acc.length + 1 ≤
        (pnLoop total pairs curVal pctCnt curPct pending false acc nu).1.length := by
  intro pairs
  induction pairs with
  | nil =>
    intro _ _ _ _ _ _ hne _
    exact absurd rfl hne
  | cons hd rest ih =>
    obtain ⟨x, wt⟩ := hd
    intro curVal pctCnt curPct pending acc nu _ hmass
    by_cases hcond : curPct = 0 ∨ pctCnt + wt / total ≥ curPct
    · cases pending with
      | nil =>
        rw [show pnLoop total ((x, wt) :: rest) curVal pctCnt curPct [] false acc nu =
          pnLoop total rest x (pctCnt + wt / total) curPct [] true (x :: acc)
            (if x = curVal then nu else nu + 1) from by simp [pnLoop, hcond]]
        have := pnLoop_acc_le total rest x (pctCnt + wt / total) curPct [] true (x :: acc)
          (if x = curVal then nu else nu + 1)
        simpa using this
      | cons p ps =>
        rw [show pnLoop total ((x, wt) :: rest) curVal pctCnt curPct (p :: ps) false acc nu =
          pnLoop total rest x (pctCnt + wt / total) p ps false (x :: acc)
            (if x = curVal then nu else nu + 1) from by simp [pnLoop, hcond]]
        have := pnLoop_acc_le total rest x (pctCnt + wt / total) p ps false (x :: acc)
          (if x = curVal then nu else nu + 1)
        simpa using this
    · rw [show pnLoop total ((x, wt) :: rest) curVal pctCnt curPct pending false acc nu =
        pnLoop total rest x (pctCnt + wt / total) curPct pending false acc
          (if x = curVal then nu else nu + 1) from by simp [pnLoop, hcond]]
      push_neg at hcond
      obtain ⟨hc0, hclt⟩ := hcond
      have hrestmass : pctCnt + wt / total + (rest.map Prod.snd).sum / total ≥ curPct := by
        rcases hmass with h | h
        · exact absurd h hc0
        · have hexp : (((x, wt) :: rest).map Prod.snd).sum = wt + (rest.map Prod.snd).sum := by
            simp
          rw [hexp, add_div] at h
          linarith
      have hrest_ne : rest ≠ [] := by
        intro hnil
        subst hnil
        simp at hrestmass
        linarith
      exact ih x (pctCnt + wt / total) curPct pending acc
        (if x = curVal then nu else nu + 1) hrest_ne (Or.inr hrestmass)

/-- When the current target fraction is 0, the very first walked element
is emitted immediately (Rust: `current_pct == T::zero()` satisfies the
emission test regardless of accumulated mass). -/
theorem pnLoop_head_emit (total : ℚ) (x0 : F) (w0 : ℚ) (tail : List (F × ℚ))
    (curVal : F) (pctCnt : ℚ) (pending : List ℚ) (nu : Int) :
    ∃ s : List F, s.Sublist (tail.map Prod.fst) ∧
      (pnLoop total ((x0, w0) :: tail) curVal pctCnt 0 pending false [] nu).1 =
        x0 :: s := by
  cases pending with
  | nil =>
    rw [show pnLoop total ((x0, w0) :: tail) curVal pctCnt 0 [] false [] nu =
      pnLoop total tail x0 (pctCnt + w0 / total) 0 [] true [x0]
        (if x0 = curVal then nu else nu + 1) from by simp [pnLoop]]
    obtain ⟨s, hs, heq⟩ := pnLoop_fst_append total tail x0 (pctCnt + w0 / total) 0 [] true [x0]
      (if x0 = curVal then nu else nu + 1)
    exact ⟨s, hs, by rw [heq]; simp⟩
  | cons p ps =>
    rw [show pnLoop total ((x0, w0) :: tail) curVal pctCnt 0 (p :: ps) false [] nu =
      pnLoop total tail x0 (pctCnt + w0 / total) p ps false [x0]
        (if x0 = curVal then nu else nu + 1) from by simp [pnLoop]]
    obtain ⟨s, hs, heq⟩ := pnLoop_fst_append total tail x0 (pctCnt + w0 / total) p ps false [x0]
      (if x0 = curVal then nu else nu + 1)
    exact ⟨s, hs, by rw [heq]; simp⟩

/-- A sorted float list is `fle`-pairwise provided it contains no NaN. -/
theorem pairwise_fle_of_pairwise_rle {l : List F}
    (hnan : ∀ x ∈ l, x.isNaN = false)
    (h : List.Pairwise (fun a b => fleTot a b = true) l) :
    List.Pairwise (fun a b => fle a b = true) l := by
  refine h.imp_of_mem ?_
  intro a b ha hb hr
  rw [fle_eq_fleTot (hnan a ha) (hnan b hb)]
  exact hr

theorem fsort_pairwise_fle {l : List F} (hnan : ∀ x ∈ l, x.isNaN = false) :
    List.Pairwise (fun a b => fle a b = true) (fsort l) := by
  refine pairwise_fle_of_pairwise_rle ?_ (fsort_sorted l)
  intro x hx
  exact hnan x ((fsort_perm l).mem_iff.mp hx)

/-- Head of the sorted list is a minimum: `fle`-below every element. -/
theorem fsort_head_min {l : List F} (hnan : ∀ x ∈ l, x.isNaN = false) :
    ∀ x ∈ l, fle ((fsort l).headD F.nan) x = true := by
  intro x hx
  have hxs : x ∈ fsort l := (fsort_perm l).mem_iff.mpr hx
  cases hs : fsort l with
  | nil => rw [hs] at hxs; exact absurd hxs (List.not_mem_nil x)
  | cons m0 t =>
    have hp := fsort_pairwise_fle hnan
    rw [hs] at hp hxs
    rcases List.mem_cons.mp hxs with rfl | hxt
    · exact fle_refl_of_not_nan (hnan x hx)
    · exact (List.pairwise_cons.mp hp).1 x hxt

/-- Master lemma for `percentiles_or_value` as called from `bin_matrix`
(target fractions present and starting at 0, weights long enough, no NaN
in the filtered column): it succeeds, and its output is an `fle`-sorted
list of column values whose head (when the column has any finite value)
is `fle`-below every column value. -/
theorem pov_spec (v : List F) (w : List ℚ) (cp : ℚ) (rest : List ℚ)
    (hw : v.length ≤ w.length) (hcp : cp = 0)
    (hnan : ∀ x ∈ v, x.isNaN = false) :
    ∃ p : List F, percentiles_or_value v w (cp :: rest) = some p ∧
      List.Pairwise (fun a b => fle a b = true) p ∧
      (∀ x ∈ p, x ∈ v) ∧
      (v ≠ [] → p ≠ [] ∧ ∀ x ∈ v, fle (p.headD F.nan) x = true) := by
  unfold percentiles_or_value
  by_cases hlen : (dedupConsec (fsort v)).length ≤ (cp :: rest).length + 1
  · rw [if_pos hlen]
    refine ⟨dedupConsec (fsort v), rfl, ?_, ?_, ?_⟩
    · exact List.Pairwise.sublist (dedupConsec_sublist (fsort v)) (fsort_pairwise_fle hnan)
    · intro x hx
      exact (fsort_perm v).mem_iff.mp
        ((dedupConsec_sublist (fsort v)).subset hx)
    · intro hne
      have hfs_ne : fsort v ≠ [] := by
        intro hnil
        have := (fsort_perm v).length_eq
        rw [hnil] at this
        cases v with
        | nil => exact hne rfl
        | cons a t => simp at this
      refine ⟨dedupConsec_ne_nil _ hfs_ne, ?_⟩
      intro x hx
      have hh : (dedupConsec (fsort v)).head? = (fsort v).head? := dedupConsec_head? _ hfs_ne
      have hd : (dedupConsec (fsort v)).headD F.nan = (fsort v).headD F.nan := by
        rw [List.headD_eq_head?_getD, List.headD_eq_head?_getD, hh]
      rw [hd]
      exact fsort_head_min hnan x hx
  · rw [if_neg hlen]
    unfold percentiles percentiles_nunique
    rw [if_neg (not_lt.mpr hw)]
    have hzlen : (v.zip w).length = v.length := by
      simp [List.length_zip]
      omega
    have hperm := List.perm_insertionSort rleFst (v.zip w)
    have hvne : v ≠ [] := by
      intro hnil
      rw [hnil] at hlen
      simp [fsort, dedupConsec] at hlen
    cases hs : List.insertionSort rleFst (v.zip w) with
    | nil =>
      exfalso
      rw [hs] at hperm
      have := hperm.length_eq
      rw [hzlen] at this
      cases v with
      | nil => exact hvne rfl
      | cons a t => simp at this
    | cons hd0 tail =>
      obtain ⟨x0, w0⟩ := hd0
      subst hcp
      obtain ⟨s, hsub, hres⟩ :=
        pnLoop_head_emit w.sum x0 w0 tail x0 0 rest 1
      have hvals_perm : (((x0, w0) :: tail).map Prod.fst).Perm v := by
        rw [← hs]
        have h1 := hperm.map Prod.fst
        rwa [List.map_fst_zip v w hw] at h1
      have hvals_nan : ∀ x ∈ ((x0, w0) :: tail).map Prod.fst, x.isNaN = false := by
        intro x hx
        exact hnan x (hvals_perm.mem_iff.mp hx)
      have hvals_pw : List.Pairwise (fun a b => fle a b = true)
          (((x0, w0) :: tail).map Prod.fst) := by
        refine pairwise_fle_of_pairwise_rle hvals_nan ?_
        refine List.pairwise_map.mpr ?_
        have := List.sorted_insertionSort rleFst (v.zip w)
        rw [hs] at this
        exact this
      have hp_sub : (x0 :: s).Sublist (((x0, w0) :: tail).map Prod.fst) := by
        simpa using hsub.cons₂ x0
      refine ⟨x0 :: s, by simp [hres], List.Pairwise.sublist hp_sub hvals_pw, ?_, ?_⟩
      · intro x hx
        exact hvals_perm.mem_iff.mp (hp_sub.subset hx)
      · intro _
        refine ⟨by simp, ?_⟩
        intro x hx
        have hxv : x ∈ ((x0, w0) :: tail).map Prod.fst := hvals_perm.mem_iff.mpr hx
        simp only [List.headD_cons]
        simp only [List.map_cons] at hxv
        rcases List.mem_cons.mp hxv with rfl | hxt
        · exact fle_refl_of_not_nan (hnan x hx)
        · have := (List.pairwise_cons.mp hvals_pw).1 x (by simpa using hxt)
          exact this

/-! ## Column cut-table lemmas -/

/-- For a positive bin count the first target fraction is `0/nbins = 0`. -/
theorem pctTargets_eq_cons (nbins : ℕ) (h : 1 ≤ nbins) :
    ∃ rest, pctTargets nbins = 0 :: rest := by
  cases nbins with
  | zero => omega
  | succ k =>
    rw [pctTargets, List.range_succ_eq_map, List.map_cons]
    refine ⟨_, List.cons_eq_cons.mpr ⟨?_, rfl⟩⟩
    norm_num

/-- The number of target fractions is the bin count. -/
theorem pctTargets_length (nbins : ℕ) : (pctTargets nbins).length = nbins := by
  rw [pctTargets, List.length_map, List.length_range]

/-- A column slice is never longer than `rows`. -/
theorem get_col_length_le (m : MatrixF) (i : ℕ) : (m.get_col i).length ≤ m.rows := by
  simp [MatrixF.get_col]

/-- With the fractions produced by `bin_matrix` (head 0) and a weight
vector at least `rows` long, every column's cut computation succeeds. -/
theorem colCuts_some (m : MatrixF) (w : List ℚ) (rest : List ℚ) (i : ℕ)
    (hw : m.rows ≤ w.length) :
    ∃ cc, colCuts m w (0 :: rest) i = some cc := by
  have hnan : ∀ x ∈ (m.get_col i).filter (fun v => ! v.isNaN), x.isNaN = false := by
    intro x hx
    have := (List.mem_filter.mp hx).2
    revert this
    cases x.isNaN <;> simp
  have hlen : ((m.get_col i).filter (fun v => ! v.isNaN)).length ≤ w.length :=
    le_trans (le_trans (List.length_filter_le _ _) (get_col_length_le m i)) hw
  obtain ⟨p, hp, _, _, _⟩ := pov_spec _ w 0 rest hlen rfl hnan
  exact ⟨dedupConsec (p ++ [F.maxVal]), by rw [colCuts, hp]; rfl⟩

/-- Full structural facts about a column's cut table, for a column with
no `+∞` entry: the cuts are `fle`-sorted, NaN-free, nonempty, and their
first element is `fle`-below every non-NaN value of the column. -/
theorem colCuts_spec (m : MatrixF) (w : List ℚ) (rest : List ℚ) (i : ℕ)
    (hw : m.rows ≤ w.length)
    (hpos : ∀ x ∈ m.get_col i, x ≠ F.posInf) :
    ∃ cc, colCuts m w (0 :: rest) i = some cc ∧
      List.Pairwise (fun a b => fle a b = true) cc ∧
      (∀ x ∈ cc, x.isNaN = false) ∧ cc ≠ [] ∧
      (∀ x ∈ m.get_col i, x.isNaN = false → fle (cc.headD F.nan) x = true) := by
  set nm := (m.get_col i).filter (fun v => ! v.isNaN) with hnm
  have hnan : ∀ x ∈ nm, x.isNaN = false := by
    intro x hx
    have := (List.mem_filter.mp hx).2
    revert this
    cases x.isNaN <;> simp
  have hnm_sub : ∀ x ∈ nm, x ∈ m.get_col i := fun x hx => (List.mem_filter.mp hx).1
  have hlen : nm.length ≤ w.length :=
    le_trans (le_trans (List.length_filter_le _ _) (get_col_length_le m i)) hw
  obtain ⟨p, hp, hpw, hpmem, hphead⟩ := pov_spec nm w 0 rest hlen rfl hnan
  have hp_nonan : ∀ x ∈ p, x.isNaN = false := fun x hx => hnan x (hpmem x hx)
  have happ_pw : List.Pairwise (fun a b => fle a b = true) (p ++ [F.maxVal]) := by
    rw [List.pairwise_append]
    refine ⟨hpw, List.pairwise_singleton _ _, ?_⟩
    intro a ha b hb
    rw [List.mem_singleton.mp hb]
    exact fle_maxVal_of_ne_posInf (hp_nonan a ha) (hpos a (hnm_sub a (hpmem a ha)))
  have happ_ne : p ++ [F.maxVal] ≠ [] := by simp
  refine ⟨dedupConsec (p ++ [F.maxVal]), by rw [colCuts, hp]; rfl,
    List.Pairwise.sublist (dedupConsec_sublist _) happ_pw, ?_, dedupConsec_ne_nil _ happ_ne, ?_⟩
  · intro x hx
    have hxa := (dedupConsec_sublist _).subset hx
    rcases List.mem_append.mp hxa with hxp | hxs
    · exact hp_nonan x hxp
    · rw [List.mem_singleton.mp hxs]; rfl
  · intro x hxcol hxnan
    have hxnm : x ∈ nm := List.mem_filter.mpr ⟨hxcol, by rw [hxnan]; rfl⟩
    have hnm_ne : nm ≠ [] := fun hnil => by rw [hnil] at hxnm; exact absurd hxnm (List.not_mem_nil x)
    obtain ⟨hpne, hmin⟩ := hphead hnm_ne
    have hh : (dedupConsec (p ++ [F.maxVal])).headD F.nan = p.headD F.nan := by
      rw [List.headD_eq_head?_getD, dedupConsec_head? _ happ_ne, List.head?_append]
      cases hp0 : p with
      | nil => exact absurd hp0 hpne
      | cons a t => simp [List.headD_eq_head?_getD]
    rw [hh]
    exact hmin x hxnm

/-! ## Column-loop and bin_matrix lemmas -/

/-- Inversion of a successful column loop: one cut table per column, in
order, each with at least 3 entries, and `nunique` recording exactly the
cut-table lengths. -/
theorem collectCuts_ok_spec (m : MatrixF) (w : List ℚ) (pcts : List ℚ) :
    ∀ (idxs : List ℕ) (cs : List (List F)) (nus : List ℕ),
      collectCuts m w pcts idxs = .ok (cs, nus) →
      cs.length = idxs.length ∧ nus = cs.map List.length ∧
      ∀ j, j < idxs.length →
        colCuts m w pcts (idxs.getD j 0) = some (cs.getD j []) ∧
        3 ≤ (cs.getD j []).length := by
  intro idxs
  induction idxs with
  | nil =>
    intro cs nus h
    rw [collectCuts] at h
    simp only [RRes.ok.injEq, Prod.mk.injEq] at h
    obtain ⟨h1, h2⟩ := h
    subst h1
    subst h2
    exact ⟨rfl, rfl, fun j hj => absurd hj (by simp)⟩
  | cons i rest ih =>
    intro cs nus h
    rw [collectCuts] at h
    cases hcol : colCuts m w pcts i with
    | none => simp only [hcol] at h; exact RRes.noConfusion h
    | some cc =>
      simp only [hcol] at h
      by_cases hlen3 : cc.length < 3
      · rw [if_pos hlen3] at h
        exact RRes.noConfusion h
      · rw [if_neg hlen3] at h
        cases hrec : collectCuts m w pcts rest with
        | panicked => simp only [hrec] at h; exact RRes.noConfusion h
        | err e => simp only [hrec] at h; exact RRes.noConfusion h
        | ok pr =>
          obtain ⟨cs', nus'⟩ := pr
          simp only [hrec, RRes.ok.injEq, Prod.mk.injEq] at h
          obtain ⟨h1, h2⟩ := h
          subst h1
          subst h2
          obtain ⟨ihlen, ihnus, ihidx⟩ := ih cs' nus' hrec
          refine ⟨by simp [ihlen], by simp [ihnus], ?_⟩
          intro j hj
          cases j with
          | zero => exact ⟨by simpa using hcol, by simpa using not_lt.mp hlen3⟩
          | succ j' => simpa using ihidx j' (by simpa using hj)

/-- If no column computation panics, the loop never panics. -/
theorem collectCuts_not_panicked (m : MatrixF) (w : List ℚ) (pcts : List ℚ) :
    ∀ (idxs : List ℕ), (∀ i ∈ idxs, colCuts m w pcts i ≠ none) →
      collectCuts m w pcts idxs ≠ .panicked := by
  intro idxs
  induction idxs with
  | nil => intro _ h; rw [collectCuts] at h; exact RRes.noConfusion h
  | cons i rest ih =>
    intro hnp h
    rw [collectCuts] at h
    cases hcol : colCuts m w pcts i with
    | none => exact hnp i (by simp) hcol
    | some cc =>
      simp only [hcol] at h
      by_cases hlen3 : cc.length < 3
      · rw [if_pos hlen3] at h; exact RRes.noConfusion h
      · rw [if_neg hlen3] at h
        cases hrec : collectCuts m w pcts rest with
        | panicked => exact ih (fun j hj => hnp j (by simp [hj])) hrec
        | err e => simp only [hrec] at h; exact RRes.noConfusion h
        | ok pr => obtain ⟨cs', nus'⟩ := pr; simp only [hrec] at h; exact RRes.noConfusion h

/-- The loop aborts with `NoVariance` exactly when some column's cut
table (computed successfully) has fewer than 3 entries. -/
theorem collectCuts_err_iff (m : MatrixF) (w : List ℚ) (pcts : List ℚ) :
    ∀ (idxs : List ℕ), (∀ i ∈ idxs, colCuts m w pcts i ≠ none) →
      (collectCuts m w pcts idxs = .err ForustError.NoVariance ↔
        ∃ i ∈ idxs, ∃ cc, colCuts m w pcts i = some cc ∧ cc.length < 3) := by
  intro idxs
  induction idxs with
  | nil =>
    intro _
    rw [collectCuts]
    simp
  | cons i rest ih =>
    intro hnp
    rw [collectCuts]
    cases hcol : colCuts m w pcts i with
    | none => exact absurd hcol (hnp i (by simp))
    | some cc =>
      simp only [hcol]
      by_cases hlen3 : cc.length < 3
      · rw [if_pos hlen3]
        constructor
        · intro _
          exact ⟨i, by simp, cc, hcol, hlen3⟩
        · intro _
          rfl
      · rw [if_neg hlen3]
        have ihr := ih (fun j hj => hnp j (by simp [hj]))
        cases hrec : collectCuts m w pcts rest with
        | panicked =>
          exact absurd hrec (collectCuts_not_panicked m w pcts rest
            (fun j hj => hnp j (by simp [hj])))
        | err e =>
          simp only []
          constructor
          · intro h
            have he : e = ForustError.NoVariance := by
              cases h
              rfl
            subst he
            obtain ⟨j, hj, cc', hcc', hlt⟩ := ihr.mp hrec
            exact ⟨j, by simp [hj], cc', hcc', hlt⟩
          · intro ⟨j, hj, cc', hcc', hlt⟩
            rcases List.mem_cons.mp hj with rfl | hjr
            · rw [hcol] at hcc'
              have hcceq : cc = cc' := by injection hcc'
              rw [hcceq] at hlen3
              exact absurd hlt hlen3
            · have := ihr.mpr ⟨j, hjr, cc', hcc', hlt⟩
              rw [hrec] at this
              cases this
              rfl
        | ok pr =>
          obtain ⟨cs', nus'⟩ := pr
          simp only []
          constructor
          · intro h
            exact absurd h (by simp)
          · intro ⟨j, hj, cc', hcc', hlt⟩
            rcases List.mem_cons.mp hj with rfl | hjr
            · rw [hcol] at hcc'
              have hcceq : cc = cc' := by injection hcc'
              rw [hcceq] at hlen3
              exact absurd hlt hlen3
            · have := ihr.mpr ⟨j, hjr, cc', hcc', hlt⟩
              rw [hrec] at this
              exact absurd this (by simp)

/-- Inversion of a successful `bin_matrix` call. -/
theorem bin_matrix_ok_spec (m : MatrixF) (w : List ℚ) (nbins : ℕ) (bd : BinnedData)
    (h : bin_matrix m w nbins = .ok bd) :
    collectCuts m w (pctTargets nbins) (List.range m.cols) = .ok (bd.cuts, bd.nunique) ∧
    bin_matrix_from_cuts m bd.cuts = some bd.binned_data := by
  rw [bin_matrix] at h
  cases hcol : collectCuts m w (pctTargets nbins) (List.range m.cols) with
  | panicked => simp only [hcol] at h; exact RRes.noConfusion h
  | err e => simp only [hcol] at h; exact RRes.noConfusion h
  | ok pr =>
    obtain ⟨cs, nus⟩ := pr
    simp only [hcol] at h
    cases hbins : bin_matrix_from_cuts m cs with
    | none => simp only [hbins] at h; exact RRes.noConfusion h
    | some bins =>
      simp only [hbins, RRes.ok.injEq] at h
      subst h
      refine ⟨?_, ?_⟩
      · simpa using hcol
      · simpa using hbins

/-- `bin_matrix` returns the `NoVariance` error exactly when some column
in range has a successfully computed cut table with fewer than 3 entries
(given the spec's input contract: a positive bin count and a weight
vector covering all rows, under which no column computation panics). -/
theorem bin_matrix_noVariance_iff (m : MatrixF) (w : List ℚ) (nbins : ℕ)
    (hn : 1 ≤ nbins) (hw : m.rows ≤ w.length) :
    bin_matrix m w nbins = .err ForustError.NoVariance ↔
    ∃ i ∈ List.range m.cols, ∃ cc,
      colCuts m w (pctTargets nbins) i = some cc ∧ cc.length < 3 := by
  obtain ⟨rest, hrest⟩ := pctTargets_eq_cons nbins hn
  have hnp : ∀ i ∈ List.range m.cols, colCuts m w (pctTargets nbins) i ≠ none := by
    intro i _
    rw [hrest]
    obtain ⟨cc, hcc⟩ := colCuts_some m w rest i hw
    rw [hcc]
    simp
  have hiff := collectCuts_err_iff m w (pctTargets nbins) (List.range m.cols) hnp
  rw [bin_matrix]
  cases hcol : collectCuts m w (pctTargets nbins) (List.range m.cols) with
  | panicked =>
    exact absurd hcol (collectCuts_not_panicked m w (pctTargets nbins) _ hnp)
  | err e =>
    simp only []
    constructor
    · intro h
      have he : e = ForustError.NoVariance := by cases h; rfl
      subst he
      exact hiff.mp hcol
    · intro hex
      have := hiff.mpr hex
      rw [hcol] at this
      cases this
      rfl
  | ok pr =>
    obtain ⟨cs, nus⟩ := pr
    simp only []
    constructor
    · intro h
      cases hbins : bin_matrix_from_cuts m cs with
      | none => simp only [hbins] at h; exact absurd h (by simp)
      | some bins => simp only [hbins] at h; exact absurd h (by simp)
    · intro hex
      have := hiff.mpr hex
      rw [hcol] at this
      exact absurd this (by simp)

/-- Pointwise inversion of the entry-binning recursion: success yields
one bin per entry, each the `map_bin` image of the entry against its
column's cuts. -/
theorem binEntriesAux_spec (cuts : List (List F)) (rows : ℕ) :
    ∀ (xs : List F) (k : ℕ) (bs : List ℕ),
      binEntriesAux cuts rows xs k = some bs →
      bs.length = xs.length ∧
      ∀ j, j < xs.length →
        map_bin (cuts.getD ((k + j) / rows) []) (xs.getD j F.nan) =
          some (bs.getD j 0) := by
  intro xs
  induction xs with
  | nil =>
    intro k bs h
    rw [binEntriesAux] at h
    simp only [Option.some.injEq] at h
    subst h
    exact ⟨rfl, fun j hj => absurd hj (by simp)⟩
  | cons x xs' ih =>
    intro k bs h
    rw [binEntriesAux] at h
    cases hb : map_bin (cuts.getD (k / rows) []) x with
    | none => simp only [hb] at h; exact Option.noConfusion h
    | some b =>
      simp only [hb] at h
      cases hrec : binEntriesAux cuts rows xs' (k + 1) with
      | none => simp only [hrec] at h; exact Option.noConfusion h
      | some bs' =>
        simp only [hrec, Option.some.injEq] at h
        subst h
        obtain ⟨ihlen, ihidx⟩ := ih (k + 1) bs' hrec
        refine ⟨by simp [ihlen], ?_⟩
        intro j hj
        cases j with
        | zero => simpa using hb
        | succ j' =>
          have := ihidx j' (by simpa using hj)
          rw [show k + 1 + j' = k + (j' + 1) from by omega] at this
          simpa using this

/-- `map_bin` inversion: a successful mapping is the raw binary-search
index. -/
theorem map_bin_some {x : List F} {v : F} {b : ℕ} (h : map_bin x v = some b) :
    b = first_greater_than x v := by
  rw [map_bin] at h
  by_cases hle : first_greater_than x v ≤ 65535
  · rw [if_pos hle] at h
    injection h
    omega
  · rw [if_neg hle] at h
    exact Option.noConfusion h

/-! ## GOSS lemmas -/

/-- The randomly retained positions are a sublist of the walked
positions (each is either kept or skipped, in order). -/
theorem pickRandom_sublist (sub : ℚ) (draws : ℕ → ℚ) :
    ∀ (l : List ℕ) (k : ℕ), (pickRandom sub draws l k).Sublist l := by
  intro l
  induction l with
  | nil => intro k; simp [pickRandom]
  | cons i rest ih =>
    intro k
    rw [pickRandom]
    by_cases hd : draws k < sub
    · rw [if_pos hd]
      exact (ih (k + 1)).cons₂ i
    · rw [if_neg hd]
      exact (ih (k + 1)).cons i

/-- In-place rescaling loop: length is preserved. -/
theorem foldl_set_length (fact : ℚ) :
    ∀ (idx : List ℕ) (g : List ℚ),
      (idx.foldl (fun g i => g.set i (g.getD i 0 * fact)) g).length = g.length := by
  intro idx
  induction idx with
  | nil => intro g; rfl
  | cons i rest ih =>
    intro g
    rw [List.foldl_cons, ih]
    exact List.length_set g i _

/-- In-place rescaling loop over distinct positions: each listed position
is multiplied by the factor exactly once, every other position is
untouched. -/
theorem foldl_set_getD (fact : ℚ) :
    ∀ (idx : List ℕ) (g : List ℚ), idx.Nodup → ∀ j, j < g.length →
      (idx.foldl (fun g i => g.set i (g.getD i 0 * fact)) g).getD j 0 =
        if j ∈ idx then g.getD j 0 * fact else g.getD j 0 := by
  intro idx
  induction idx with
  | nil =>
    intro g _ j _
    simp
  | cons i rest ih =>
    intro g hnd j hj
    rw [List.foldl_cons]
    have hnd' := (List.nodup_cons.mp hnd).2
    have hinotr := (List.nodup_cons.mp hnd).1
    have hlen' : (g.set i (g.getD i 0 * fact)).length = g.length := List.length_set g i _
    rw [ih (g.set i (g.getD i 0 * fact)) hnd' j (by omega)]
    by_cases hji : j = i
    · subst hji
      have hjnr : j ∉ rest := hinotr
      rw [if_neg hjnr, if_pos (List.mem_cons_self j rest)]
      rw [List.getD_eq_getElem?_getD, List.getElem?_set_self hj]
      simp
    · have hmem : j ∈ i :: rest ↔ j ∈ rest := by
        constructor
        · intro h
          rcases List.mem_cons.mp h with rfl | hr
          · exact absurd rfl hji
          · exact hr
        · exact fun h => List.mem_cons_of_mem i h
      have hset : (g.set i (g.getD i 0 * fact)).getD j 0 = g.getD j 0 := by
        rw [List.getD_eq_getElem?_getD, List.getElem?_set_ne (fun h => hji h.symm),
          ← List.getD_eq_getElem?_getD]
      rw [hset]
      by_cases hjr : j ∈ rest
      · rw [if_pos hjr, if_pos (hmem.mpr hjr)]
      · rw [if_neg hjr, if_neg (fun h => hjr (hmem.mp h))]

/-- The GOSS sort is a permutation of the positions `0..n`, hence
duplicate-free, and is `gossRel`-pairwise (descending absolute
gradient). -/
theorem goss_sorted_facts (grad : List ℚ) (n : ℕ) :
    (List.insertionSort (gossRel grad) (List.range n)).Perm (List.range n) ∧
    (List.insertionSort (gossRel grad) (List.range n)).Nodup ∧
    List.Pairwise (gossRel grad) (List.insertionSort (gossRel grad) (List.range n)) := by
  have hperm := List.perm_insertionSort (gossRel grad) (List.range n)
  exact ⟨hperm, (List.Perm.nodup hperm.symm) (List.nodup_range n),
    List.sorted_insertionSort (gossRel grad) (List.range n)⟩

/-! ## Claim theorems -/

/-- Claim C9: for equal-length label, prediction and weight sequences,
the `LogLoss` gradient at each row equals `(σ(yhat) - y) * weight` with
`σ(x) = 1/(1+e^(-x))`. -/
theorem logLoss_grad_pointwise (y yhat w : List ℝ) (i : ℕ)
    (h1 : yhat.length = y.length) (h2 : w.length = y.length) (hi : i < y.length) :
    (LogLoss.calc_grad y yhat w).getD i 0 =
      (sigmaFn (yhat.getD i 0) - y.getD i 0) * w.getD i 0 := by
  have hz1 : i < (y.zip yhat).length := by rw [List.length_zip]; omega
  have hz2 : i < ((y.zip yhat).zip w).length := by
    rw [List.length_zip, List.length_zip]; omega
  rw [LogLoss.calc_grad,
    List.getD_eq_getElem (((y.zip yhat).zip w).map _) 0 (by rw [List.length_map]; exact hz2),
    List.getElem_map, List.getElem_zip, List.getElem_zip,
    List.getD_eq_getElem y 0 hi, List.getD_eq_getElem yhat 0 (by omega),
    List.getD_eq_getElem w 0 (by omega)]

/-- Witness for C9: at raw prediction 0, label 1, weight 1, the LogLoss
gradient is `σ(0) - 1 = -1/2`. -/
theorem logLoss_grad_pointwise_witness :
    (LogLoss.calc_grad [1] [0] [1]).getD 0 0 = -(1 / 2) := by
  have h := logLoss_grad_pointwise [1] [0] [1] 0 (by simp) (by simp) (by simp)
  rw [h, show ([0] : List ℝ).getD 0 0 = 0 from rfl,
    show ([1] : List ℝ).getD 0 0 = 1 from rfl, sigmaFn, neg_zero, Real.exp_zero]
  norm_num

/-- Claim C2 evaluated at a failing input (code bug): with 10 eligible
rows, `a = 0.2`, `b = 0.1`, the source's threshold
`(randN / (index.len() - topN)) as f64` is the *usize* division
`1 / 8 = 0`, not the ratio `1/8` the spec requires, so no row is ever
randomly retained. -/
theorem goss_threshold_integer_division :
    gossSubsample (1 / 5) (1 / 10) 10 = 0 ∧
    specGossThreshold (1 / 5) (1 / 10) 10 = 1 / 8 ∧
    gossSubsample (1 / 5) (1 / 10) 10 ≠ specGossThreshold (1 / 5) (1 / 10) 10 := by
  refine ⟨?_, ?_, ?_⟩ <;> norm_num [gossSubsample, specGossThreshold]

/-- Claim C8: when the random pool `N - ⌊a·N⌋` is empty, the GOSS sample
operation fails (usize division-by-zero panic, modelled as `none`) and in
particular returns no rescaled gradient/hessian buffers: the failure
happens before the mutation loop runs. -/
theorem goss_degenerate_panics (a b : ℚ) (draws : ℕ → ℚ) (index : List ℕ)
    (grad hess : List ℚ)
    (h : index.length - ⌊a * (index.length : ℚ)⌋₊ = 0) :
    gossSample a b draws index grad hess = none := by
  simp only [gossSample]
  rw [if_pos h]

/-- Witness for C8: `a = 1` on two rows. -/
theorem goss_degenerate_panics_witness :
    gossSample 1 (1 / 2) (fun _ => 1 / 2) [0, 1] [1, 2] [1, 1] = none :=
  goss_degenerate_panics 1 (1 / 2) _ _ _ _ (by norm_num)

/-- Claim C3 is false as stated: for `v = [1, 2]`, weights `[1, 1]`
(equal length, strictly positive) and ascending fractions
`[0.9, 1] ⊆ [0,1]`, only one boundary is emitted for two requested
fractions — the walk can emit at most one boundary per row, and both
fractions are first reached at the last row. -/
theorem percentile_shortfall_counterexample :
    percentiles_nunique [F.val 1, F.val 2] [1, 1] [9 / 10, 1] =
      some ([F.val 2], 2) ∧
    ([F.val 2] : List F).length < ([9 / 10, 1] : List ℚ).length := by
  constructor
  · norm_num [percentiles_nunique, List.insertionSort, List.orderedInsert, rleFst,
      fleTot, pnLoop]
  · simp

/-- Claim C3 amended: under the stated input contract (non-empty NaN-free
values, equal-length strictly positive weights, non-empty fractions in
`[0,1]`), the routine succeeds and emits at least one and at most one
boundary per requested fraction; exactly one per fraction is not
guaranteed.  (The NaN-freeness hypothesis reflects the Rust sort
comparator, which panics on NaN.) -/
theorem percentiles_nunique_bounds (v : List F) (w : List ℚ) (pcts : List ℚ)
    (hv : v ≠ []) (hnan : ∀ x ∈ v, x.isNaN = false)
    (hlen : w.length = v.length) (hwpos : ∀ q ∈ w, 0 < q)
    (hpcts : pcts ≠ []) (hrange : ∀ f ∈ pcts, 0 ≤ f ∧ f ≤ 1) :
    ∃ p nu, percentiles_nunique v w pcts = some (p, nu) ∧
      1 ≤ p.length ∧ p.length ≤ pcts.length := by
  unfold percentiles_nunique
  rw [if_neg (by omega : ¬ w.length < v.length)]
  cases pcts with
  | nil => exact absurd rfl hpcts
  | cons cp rest =>
    have hzlen : (v.zip w).length = v.length := by
      rw [List.length_zip]
      omega
    have hperm := List.perm_insertionSort rleFst (v.zip w)
    cases hs : List.insertionSort rleFst (v.zip w) with
    | nil =>
      exfalso
      rw [hs] at hperm
      have := hperm.length_eq
      rw [hzlen] at this
      cases v with
      | nil => exact hv rfl
      | cons a t => simp at this
    | cons hd0 tail =>
      obtain ⟨x0, w0⟩ := hd0
      refine ⟨(pnLoop w.sum ((x0, w0) :: tail) x0 0 cp rest false [] 1).1,
        (pnLoop w.sum ((x0, w0) :: tail) x0 0 cp rest false [] 1).2, rfl, ?_, ?_⟩
      · have hsum : ((((x0, w0) :: tail).map Prod.snd).sum : ℚ) = w.sum := by
          have h1 := (hperm.map Prod.snd).sum_eq
          rw [hs] at h1
          rwa [List.map_snd_zip v w (le_of_eq hlen)] at h1
        have hwne : w ≠ [] := by
          intro hnil
          rw [hnil] at hlen
          cases v with
          | nil => exact hv rfl
          | cons a t => simp at hlen
        have hwsum : 0 < w.sum := List.sum_pos w hwpos hwne
        have hmass : cp = 0 ∨
            (0 : ℚ) + (((x0, w0) :: tail).map Prod.snd).sum / w.sum ≥ cp := by
          by_cases hcp0 : cp = 0
          · exact Or.inl hcp0
          · refine Or.inr ?_
            rw [hsum, zero_add, div_self (ne_of_gt hwsum)]
            exact (hrange cp (by simp)).2
        have := pnLoop_emits w.sum ((x0, w0) :: tail) x0 0 cp rest [] 1
          (by simp) hmass
        simpa using this
      · have := pnLoop_length_le w.sum ((x0, w0) :: tail) x0 0 cp rest false [] 1
        simp only [if_false, List.length_nil, zero_add, Bool.false_eq_true] at this
        simpa using this

/-- Claim C6: with the spec's input contract (positive bin count, weight
vector covering all rows), `bin_matrix` returns the `NoVariance` error
for the whole call exactly when some column's deduplicated cut table
(sentinel included) has fewer than 3 entries; with every column at 3 or
more boundaries the error never occurs.  (No partial `BinnedData`
accompanies the error by construction of the result type.) -/
theorem bin_matrix_noVariance_characterisation (m : MatrixF) (w : List ℚ)
    (nbins : ℕ) (hn : 1 ≤ nbins) (hw : m.rows ≤ w.length) :
    bin_matrix m w nbins = .err ForustError.NoVariance ↔
    ∃ i, i < m.cols ∧ ∃ cc,
      colCuts m w (pctTargets nbins) i = some cc ∧ cc.length < 3 := by
  rw [bin_matrix_noVariance_iff m w nbins hn hw]
  simp [List.mem_range]

/-- Witness for C6: a constant column is rejected with `NoVariance`. -/
theorem bin_matrix_noVariance_characterisation_witness :
    bin_matrix ⟨[F.val 5, F.val 5], 2, 1⟩ [1, 1] 4 =
      .err ForustError.NoVariance := by
  refine (bin_matrix_noVariance_characterisation ⟨[F.val 5, F.val 5], 2, 1⟩ [1, 1] 4
    (by norm_num) (by norm_num)).mpr ?_
  refine ⟨0, by norm_num, [F.val 5, F.maxVal], ?_, by norm_num⟩
  norm_num [colCuts, percentiles_or_value, MatrixF.get_col, fsort,
    List.insertionSort, List.orderedInsert, rle, fleTot, dedupConsec,
    pctTargets_length, F.isNaN]

/-- Claim C10: a matrix containing an all-NaN column is rejected with the
`NoVariance` error (under the spec's input contract), rather than
panicking or producing a binned result: the empty filtered column takes
the distinct-values shortcut and yields the one-element cut table
`[MAX]`, failing the minimum-3-boundaries check. -/
theorem bin_matrix_allNaN_noVariance (m : MatrixF) (w : List ℚ) (nbins : ℕ)
    (hn : 1 ≤ nbins) (hw : m.rows ≤ w.length) (i : ℕ) (hi : i < m.cols)
    (hnan : ∀ x ∈ m.get_col i, x.isNaN = true) :
    bin_matrix m w nbins = .err ForustError.NoVariance := by
  refine (bin_matrix_noVariance_iff m w nbins hn hw).mpr ?_
  refine ⟨i, List.mem_range.mpr hi, [F.maxVal], ?_, by simp⟩
  have hfilter : (m.get_col i).filter (fun v => ! v.isNaN) = [] := by
    rw [List.filter_eq_nil_iff]
    intro a ha
    simp [hnan a ha]
  rw [colCuts]
  simp only [hfilter]
  rw [percentiles_or_value]
  norm_num [fsort, List.insertionSort, dedupConsec]

/-- Witness for C10: a two-row matrix whose single column is all NaN. -/
theorem bin_matrix_allNaN_noVariance_witness :
    bin_matrix ⟨[F.nan, F.nan], 2, 1⟩ [1, 1] 4 = .err ForustError.NoVariance := by
  refine bin_matrix_allNaN_noVariance ⟨[F.nan, F.nan], 2, 1⟩ [1, 1] 4
    (by norm_num) (by norm_num) 0 (by norm_num) ?_
  intro x hx
  simp [MatrixF.get_col] at hx
  rcases hx with rfl | rfl <;> rfl

/-- Claim C5 is false as stated: for the single column `[1, 2, 3, 4]`
binned with `nbins = 2`, the reported `nunique` entry is 3 (the final
cut-table length `[1, 2, MAX]`), while the column has 4 distinct finite
values — the code pushes `col_cuts.len()`, not the distinct count. -/
theorem nunique_counterexample :
    bin_matrix ⟨[F.val 1, F.val 2, F.val 3, F.val 4], 4, 1⟩ [1, 1, 1, 1] 2 =
      .ok ⟨[1, 2, 2, 2], [[F.val 1, F.val 2, F.maxVal]], [3]⟩ ∧
    distinctFiniteCount [F.val 1, F.val 2, F.val 3, F.val 4] = 4 ∧
    (3 : ℕ) ≠ 4 := by
  refine ⟨?_, ?_, by norm_num⟩
  · norm_num [bin_matrix, collectCuts, colCuts, percentiles_or_value, percentiles,
      percentiles_nunique, pnLoop, pctTargets, MatrixF.get_col, fsort,
      List.insertionSort, List.orderedInsert, rleFst, rle, fleTot, dedupConsec,
      bin_matrix_from_cuts, binEntriesAux, map_bin, first_greater_than, fgtAux,
      fle, F.isNaN, List.range_succ]
  · norm_num [distinctFiniteCount, F.isFinite, List.dedup, List.pwFilter]

/-- Claim C5 amended: for every successfully binned matrix, the
`nunique` entry reported for each column equals the length of that
column's final deduplicated cut table (sentinel included), i.e.
`nunique = cuts.map length`. -/
theorem nunique_eq_cut_lengths (m : MatrixF) (w : List ℚ) (nbins : ℕ)
    (bd : BinnedData) (h : bin_matrix m w nbins = .ok bd) :
    bd.nunique = bd.cuts.map List.length := by
  obtain ⟨hcol, _⟩ := bin_matrix_ok_spec m w nbins bd h
  exact (collectCuts_ok_spec m w (pctTargets nbins) (List.range m.cols)
    bd.cuts bd.nunique hcol).2.1

/-- Witness for the amended C5 at the counterexample matrix. -/
theorem nunique_eq_cut_lengths_witness :
    (BinnedData.mk [1, 2, 2, 2] [[F.val 1, F.val 2, F.maxVal]] [3]).nunique =
      (BinnedData.mk [1, 2, 2, 2] [[F.val 1, F.val 2, F.maxVal]] [3]).cuts.map
        List.length :=
  nunique_eq_cut_lengths ⟨[F.val 1, F.val 2, F.val 3, F.val 4], 4, 1⟩ [1, 1, 1, 1] 2 _
    (by norm_num [bin_matrix, collectCuts, colCuts, percentiles_or_value, percentiles,
      percentiles_nunique, pnLoop, pctTargets, MatrixF.get_col, fsort,
      List.insertionSort, List.orderedInsert, rleFst, rle, fleTot, dedupConsec,
      bin_matrix_from_cuts, binEntriesAux, map_bin, first_greater_than, fgtAux,
      fle, F.isNaN, List.range_succ])

/-- Claim C4 is false as stated: `+∞` is a non-finite value, yet it does
*not* fail every boundary comparison — `MAX <= +∞` holds — and it
binary-searches past every cut into the **last** bin (index 5 here), not
the missing bin 0.  Only NaN self-routes to bin 0. -/
theorem posInf_not_missing_bin :
    bin_matrix ⟨[F.val 1, F.val 2, F.val 3, F.posInf], 4, 1⟩ [1, 1, 1, 1] 3 =
      .ok ⟨[1, 2, 3, 5], [[F.val 1, F.val 2, F.val 3, F.posInf, F.maxVal]], [5]⟩ ∧
    F.posInf.isFinite = false ∧ fle F.maxVal F.posInf = true ∧ (5 : ℕ) ≠ 0 := by
  refine ⟨?_, rfl, rfl, by norm_num⟩
  norm_num [bin_matrix, collectCuts, colCuts, percentiles_or_value, percentiles,
    percentiles_nunique, pnLoop, pctTargets, MatrixF.get_col, fsort,
    List.insertionSort, List.orderedInsert, rleFst, rle, fleTot, dedupConsec,
    bin_matrix_from_cuts, binEntriesAux, map_bin, first_greater_than, fgtAux,
    fle, F.isNaN, List.range_succ]

/-- Claim C4 amended: every **NaN** matrix entry fails every boundary
comparison in the binary search and is assigned bin index 0, with no
separate missing-value branch; infinities are not covered (see the
counterexample). -/
theorem nan_entries_bin_to_zero (m : MatrixF) (w : List ℚ) (nbins : ℕ)
    (bd : BinnedData) (h : bin_matrix m w nbins = .ok bd) (k : ℕ)
    (hk : k < m.data.length) (hnan : (m.data.getD k F.nan).isNaN = true) :
    bd.binned_data.getD k 0 = 0 ∧
    fle ((bd.cuts.getD (k / m.rows) []).headD F.nan) (m.data.getD k F.nan) = false := by
  obtain ⟨_, hbins⟩ := bin_matrix_ok_spec m w nbins bd h
  obtain ⟨_, hidx⟩ := binEntriesAux_spec bd.cuts m.rows m.data 0 bd.binned_data hbins
  have hmb := hidx k hk
  rw [zero_add] at hmb
  have hveq : m.data.getD k F.nan = F.nan := by
    revert hnan
    cases m.data.getD k F.nan <;> simp [F.isNaN]
  rw [hveq] at hmb ⊢
  rw [map_bin, first_greater_than_nan] at hmb
  rw [if_pos (by omega)] at hmb
  have : bd.binned_data.getD k 0 = 0 := by
    injection hmb with h'
    omega
  exact ⟨this, fle_nan_right _⟩

/-- Witness for the amended C4: the NaN entry of a successfully binned
column lands in bin 0. -/
theorem nan_entries_bin_to_zero_witness :
    bin_matrix ⟨[F.val 1, F.val 2, F.nan], 3, 1⟩ [1, 1, 1] 4 =
      .ok ⟨[1, 2, 0], [[F.val 1, F.val 2, F.maxVal]], [3]⟩ ∧
    (BinnedData.mk [1, 2, 0] [[F.val 1, F.val 2, F.maxVal]] [3]).binned_data.getD 2 0
      = 0 := by
  have hbm : bin_matrix ⟨[F.val 1, F.val 2, F.nan], 3, 1⟩ [1, 1, 1] 4 =
      .ok ⟨[1, 2, 0], [[F.val 1, F.val 2, F.maxVal]], [3]⟩ := by
    norm_num [bin_matrix, collectCuts, colCuts, percentiles_or_value, percentiles,
      percentiles_nunique, pnLoop, pctTargets, MatrixF.get_col, fsort,
      List.insertionSort, List.orderedInsert, rleFst, rle, fleTot, dedupConsec,
      bin_matrix_from_cuts, binEntriesAux, map_bin, first_greater_than, fgtAux,
      fle, F.isNaN, List.range_succ]
  exact ⟨hbm, (nan_entries_bin_to_zero _ _ _ _ hbm 2 (by norm_num) (by rfl)).1⟩

/-- Claim C7: a successful GOSS call chooses exactly the top `⌊a·N⌋`
positions by absolute gradient followed by the randomly retained
positions; only the randomly retained positions have their gradient and
hessian scaled by `(1-a)/b` (each exactly once), every other entry is
unchanged, and the excluded set is empty. -/
theorem goss_sample_frame (a b : ℚ) (draws : ℕ → ℚ) (index : List ℕ)
    (grad hess : List ℚ) (used exc : List ℕ) (g2 h2 : List ℚ)
    (h : gossSample a b draws index grad hess = some (used, exc, g2, h2)) :
    ∃ randomSet : List ℕ,
      used = (List.insertionSort (gossRel grad) (List.range index.length)).take
          ⌊a * (index.length : ℚ)⌋₊ ++ randomSet ∧
      ⌊a * (index.length : ℚ)⌋₊ < index.length ∧
      used.length = ⌊a * (index.length : ℚ)⌋₊ + randomSet.length ∧
      exc = [] ∧
      (∀ i ∈ (List.insertionSort (gossRel grad) (List.range index.length)).take
          ⌊a * (index.length : ℚ)⌋₊,
        ∀ j ∈ (List.insertionSort (gossRel grad) (List.range index.length)).drop
          ⌊a * (index.length : ℚ)⌋₊,
        |grad.getD j 0| ≤ |grad.getD i 0|) ∧
      (∀ j, j < grad.length →
        g2.getD j 0 =
          if j ∈ randomSet then grad.getD j 0 * ((1 - a) / b)
          else grad.getD j 0) ∧
      (∀ j, j < hess.length →
        h2.getD j 0 =
          if j ∈ randomSet then hess.getD j 0 * ((1 - a) / b)
          else hess.getD j 0) := by
  simp only [gossSample] at h
  by_cases hpool : index.length - ⌊a * (index.length : ℚ)⌋₊ = 0
  · rw [if_pos hpool] at h
    exact Option.noConfusion h
  · rw [if_neg hpool] at h
    simp only [Option.some.injEq, Prod.mk.injEq] at h
    obtain ⟨hused, hexc, hg2, hh2⟩ := h
    obtain ⟨hperm, hnodup, hpw⟩ := goss_sorted_facts grad index.length
    have hslen : (List.insertionSort (gossRel grad) (List.range index.length)).length =
        index.length := by
      rw [hperm.length_eq, List.length_range]
    have htopn : ⌊a * (index.length : ℚ)⌋₊ < index.length := by omega
    refine ⟨pickRandom (gossSubsample a b index.length) draws
      ((List.insertionSort (gossRel grad) (List.range index.length)).drop
        ⌊a * (index.length : ℚ)⌋₊) 0, hused.symm, htopn, ?_, hexc.symm, ?_, ?_, ?_⟩
    · rw [← hused, List.length_append, List.length_take, hslen]
      omega
    · intro i hi j hj
      have := List.pairwise_append.mp
        ((List.take_append_drop ⌊a * (index.length : ℚ)⌋₊
          (List.insertionSort (gossRel grad) (List.range index.length))).symm ▸ hpw)
      exact this.2.2 i hi j hj
    · intro j hj
      have hnd : (pickRandom (gossSubsample a b index.length) draws
          ((List.insertionSort (gossRel grad) (List.range index.length)).drop
            ⌊a * (index.length : ℚ)⌋₊) 0).Nodup :=
        ((pickRandom_sublist _ _ _ _).trans (List.drop_sublist _ _)).nodup hnodup
      rw [← hg2]
      exact foldl_set_getD ((1 - a) / b) _ grad hnd j hj
    · intro j hj
      have hnd : (pickRandom (gossSubsample a b index.length) draws
          ((List.insertionSort (gossRel grad) (List.range index.length)).drop
            ⌊a * (index.length : ℚ)⌋₊) 0).Nodup :=
        ((pickRandom_sublist _ _ _ _).trans (List.drop_sublist _ _)).nodup hnodup
      rw [← hh2]
      exact foldl_set_getD ((1 - a) / b) _ hess hnd j hj

/-- Witness for C7: a concrete GOSS run with `a = 1/2`, `b = 3/4` on four
rows (threshold 1, so both non-top rows are retained and rescaled by
`(1 - 1/2)/(3/4) = 2/3`). -/
theorem goss_sample_frame_witness :
    ⌊(1 / 2 : ℚ) * ((4 : ℕ) : ℚ)⌋₊ < 4 ∧ ([] : List ℕ) = [] := by
  obtain ⟨rs, h1, h2, h3, h4, _⟩ := goss_sample_frame (1 / 2) (3 / 4) (fun _ => 1 / 2)
    [0, 1, 2, 3] [1, 2, 3, 4] [1, 1, 1, 1] [3, 2, 1, 0] [] [2 / 3, 4 / 3, 3, 4]
    [2 / 3, 2 / 3, 1, 1]
    (by norm_num [gossSample, gossSubsample, pickRandom, List.insertionSort,
      List.orderedInsert, gossRel, List.range_succ])
  exact ⟨h2, h4⟩

/-- With an empty fraction list (bin count 0), a successful column cut
computation can only have taken the distinct-value shortcut with at most
one distinct value, so the cut table has at most 2 entries — below the
minimum of 3.  (Hence a successful `bin_matrix` with any column implies
a positive bin count.) -/
theorem colCuts_nil_pcts_short (m : MatrixF) (w : List ℚ) (i : ℕ) (cc : List F)
    (h : colCuts m w [] i = some cc) : cc.length ≤ 2 := by
  simp only [colCuts] at h
  set nm := (m.get_col i).filter (fun v => ! v.isNaN) with hnm
  unfold percentiles_or_value at h
  by_cases hdp : (dedupConsec (fsort nm)).length ≤ ([] : List ℚ).length + 1
  · rw [if_pos hdp] at h
    simp only [Option.map_some', Option.some.injEq] at h
    rw [← h]
    have h1 := (dedupConsec_sublist (dedupConsec (fsort nm) ++ [F.maxVal])).length_le
    have h2 : (dedupConsec (fsort nm) ++ [F.maxVal]).length =
        (dedupConsec (fsort nm)).length + 1 := by simp
    simp only [List.length_nil] at hdp
    omega
  · rw [if_neg hdp] at h
    have hnone : percentiles nm w [] = none := by
      unfold percentiles percentiles_nunique
      by_cases hg : w.length < nm.length
      · rw [if_pos hg]
        rfl
      · rw [if_neg hg]
        rfl
    rw [hnone] at h
    exact Option.noConfusion h

/-- Inversion of a successful column cut computation (for a column with
no `+∞` entry): the cut table is `fle`-sorted, NaN-free, nonempty, and
its first element is `fle`-below every non-NaN value of the column. -/
theorem colCuts_props (m : MatrixF) (w : List ℚ) (rest : List ℚ) (i : ℕ) (cc : List F)
    (hpos : ∀ x ∈ m.get_col i, x ≠ F.posInf)
    (h : colCuts m w (0 :: rest) i = some cc) :
    List.Pairwise (fun a b => fle a b = true) cc ∧
    (∀ x ∈ cc, x.isNaN = false) ∧ cc ≠ [] ∧
    (∀ x ∈ m.get_col i, x.isNaN = false → fle (cc.headD F.nan) x = true) := by
  simp only [colCuts] at h
  set nm := (m.get_col i).filter (fun v => ! v.isNaN) with hnm
  have hnan : ∀ x ∈ nm, x.isNaN = false := by
    intro x hx
    have := (List.mem_filter.mp hx).2
    revert this
    cases x.isNaN <;> simp
  have hnm_sub : ∀ x ∈ nm, x ∈ m.get_col i := fun x hx => (List.mem_filter.mp hx).1
  cases hpov : percentiles_or_value nm w (0 :: rest) with
  | none => rw [hpov] at h; exact Option.noConfusion h
  | some p =>
    rw [hpov] at h
    simp only [Option.map_some', Option.some.injEq] at h
    have hp_props : List.Pairwise (fun a b => fle a b = true) p ∧
        (∀ x ∈ p, x ∈ nm) ∧
        (nm ≠ [] → p ≠ [] ∧ ∀ x ∈ nm, fle (p.headD F.nan) x = true) := by
      unfold percentiles_or_value at hpov
      by_cases hdp : (dedupConsec (fsort nm)).length ≤ (0 :: rest).length + 1
      · rw [if_pos hdp] at hpov
        have hp_eq : dedupConsec (fsort nm) = p := by injection hpov
        rw [← hp_eq]
        refine ⟨List.Pairwise.sublist (dedupConsec_sublist _) (fsort_pairwise_fle hnan),
          ?_, ?_⟩
        · intro x hx
          exact (fsort_perm nm).mem_iff.mp ((dedupConsec_sublist _).subset hx)
        · intro hne
          have hfs_ne : fsort nm ≠ [] := by
            intro hnil
            have hl := (fsort_perm nm).length_eq
            rw [hnil] at hl
            simp only [List.length_nil] at hl
            exact hne (List.eq_nil_of_length_eq_zero hl.symm)
          refine ⟨dedupConsec_ne_nil _ hfs_ne, ?_⟩
          intro x hx
          have hd : (dedupConsec (fsort nm)).headD F.nan = (fsort nm).headD F.nan := by
            rw [List.headD_eq_head?_getD, List.headD_eq_head?_getD,
              dedupConsec_head? _ hfs_ne]
          rw [hd]
          exact fsort_head_min hnan x hx
      · rw [if_neg hdp] at hpov
        have hwv : nm.length ≤ w.length := by
          by_contra hlt'
          unfold percentiles percentiles_nunique at hpov
          rw [if_pos (by omega)] at hpov
          exact Option.noConfusion hpov
        obtain ⟨p'', hp'', hpw'', hmem'', hne''⟩ := pov_spec nm w 0 rest hwv rfl hnan
        unfold percentiles_or_value at hp''
        rw [if_neg hdp] at hp''
        rw [hpov] at hp''
        have : p = p'' := by injection hp''
        subst this
        exact ⟨hpw'', hmem'', hne''⟩
    obtain ⟨hpw, hpmem, hpne⟩ := hp_props
    have hp_nonan : ∀ x ∈ p, x.isNaN = false := fun x hx => hnan x (hpmem x hx)
    have happ_pw : List.Pairwise (fun a b => fle a b = true) (p ++ [F.maxVal]) := by
      rw [List.pairwise_append]
      refine ⟨hpw, List.pairwise_singleton _ _, ?_⟩
      intro x hx y hy
      rw [List.mem_singleton.mp hy]
      exact fle_maxVal_of_ne_posInf (hp_nonan x hx) (hpos x (hnm_sub x (hpmem x hx)))
    have happ_ne : p ++ [F.maxVal] ≠ [] := by simp
    subst h
    refine ⟨List.Pairwise.sublist (dedupConsec_sublist _) happ_pw, ?_,
      dedupConsec_ne_nil _ happ_ne, ?_⟩
    · intro x hx
      rcases List.mem_append.mp ((dedupConsec_sublist _).subset hx) with hxp | hxs
      · exact hp_nonan x hxp
      · rw [List.mem_singleton.mp hxs]
        rfl
    · intro x hxcol hxnan
      have hxnm : x ∈ nm := List.mem_filter.mpr ⟨hxcol, by rw [hxnan]; rfl⟩
      have hnm_ne : nm ≠ [] := fun hnil => by
        rw [hnil] at hxnm
        exact absurd hxnm (List.not_mem_nil x)
      obtain ⟨hpne', hmin⟩ := hpne hnm_ne
      have hh : (dedupConsec (p ++ [F.maxVal])).headD F.nan = p.headD F.nan := by
        rw [List.headD_eq_head?_getD, dedupConsec_head? _ happ_ne, List.head?_append]
        cases hp0 : p with
        | nil => exact absurd hp0 hpne'
        | cons u t => simp [List.headD_eq_head?_getD]
      rw [hh]
      exact hmin x hxnm

/-- The entry at row `r`, column `c` of a well-shaped matrix is a member
of `get_col c`. -/
theorem get_col_entry (m : MatrixF) (c r : ℕ) (hr : r < m.rows) (hc : c < m.cols)
    (hshape : m.data.length = m.rows * m.cols) :
    m.data.getD (c * m.rows + r) F.nan ∈ m.get_col c := by
  have hcols : (c + 1) * m.rows ≤ m.data.length := by
    rw [hshape, Nat.mul_comm m.rows m.cols]
    exact Nat.mul_le_mul_right _ (by omega)
  rw [Nat.succ_mul] at hcols
  have hlen : (m.get_col c).length = m.rows := by
    rw [MatrixF.get_col, List.length_take, List.length_drop]
    omega
  have hgr : (m.get_col c).getD r F.nan = m.data.getD (c * m.rows + r) F.nan := by
    rw [MatrixF.get_col, List.getD_eq_getElem?_getD, List.getElem?_take, if_pos hr,
      List.getElem?_drop, List.getD_eq_getElem?_getD]
  rw [← hgr, List.getD_eq_getElem _ _ (by omega : r < (m.get_col c).length)]
  exact List.getElem_mem _

/-- Claim C1 is false as stated: for the single column `[1, 2, 3, 4]`
binned with `nbins = 2` the cut table is `[1, 2, MAX]`; the row with
value 3 receives bin index 2, but the claimed half-open interval
`(cuts[0], cuts[1]] = (1, 2]` excludes 3 (`3 <= 2` is false).  The
actual convention is left-closed: bin `k` covers `[cuts[k-1], cuts[k])`. -/
theorem round_trip_interval_counterexample :
    bin_matrix ⟨[F.val 1, F.val 2, F.val 3, F.val 4], 4, 1⟩ [1, 1, 1, 1] 2 =
      .ok ⟨[1, 2, 2, 2], [[F.val 1, F.val 2, F.maxVal]], [3]⟩ ∧
    fle (F.val 3) (F.val 2) = false := by
  refine ⟨?_, rfl⟩
  norm_num [bin_matrix, collectCuts, colCuts, percentiles_or_value, percentiles,
    percentiles_nunique, pnLoop, pctTargets, MatrixF.get_col, fsort,
    List.insertionSort, List.orderedInsert, rleFst, rle, fleTot, dedupConsec,
    bin_matrix_from_cuts, binEntriesAux, map_bin, first_greater_than, fgtAux,
    fle, F.isNaN, List.range_succ]

/-- Claim C1 amended: for every successfully binned well-shaped matrix
with no `+∞` entry, the row at `(r, c)` with bin index `k ≥ 1` has its
value in the **left-closed** interval `[cuts[k-1], cuts[k])` of column
`c`'s cut table (the right bound applying whenever `k` is not the last
bin), and every row with bin index 0 has a NaN (hence non-finite)
value. -/
theorem binned_round_trip (m : MatrixF) (w : List ℚ) (nbins : ℕ) (bd : BinnedData)
    (h : bin_matrix m w nbins = .ok bd)
    (hfin : ∀ x ∈ m.data, x ≠ F.posInf)
    (hshape : m.data.length = m.rows * m.cols)
    (r c : ℕ) (hr : r < m.rows) (hc : c < m.cols) :
    (bd.binned_data.getD (c * m.rows + r) 0 = 0 →
      (m.data.getD (c * m.rows + r) F.nan).isNaN = true) ∧
    (1 ≤ bd.binned_data.getD (c * m.rows + r) 0 →
      fle ((bd.cuts.getD c []).getD (bd.binned_data.getD (c * m.rows + r) 0 - 1) F.nan)
          (m.data.getD (c * m.rows + r) F.nan) = true ∧
      (bd.binned_data.getD (c * m.rows + r) 0 < (bd.cuts.getD c []).length →
        flt (m.data.getD (c * m.rows + r) F.nan)
            ((bd.cuts.getD c []).getD (bd.binned_data.getD (c * m.rows + r) 0) F.nan)
          = true)) := by
  obtain ⟨hcol, hbins⟩ := bin_matrix_ok_spec m w nbins bd h
  obtain ⟨hcslen, hnus, hidxs⟩ := collectCuts_ok_spec m w (pctTargets nbins)
    (List.range m.cols) bd.cuts bd.nunique hcol
  have hrangelen : (List.range m.cols).length = m.cols := List.length_range _
  have hcut_c := hidxs c (by rw [hrangelen]; exact hc)
  rw [List.getD_eq_getElem _ _ (by rw [hrangelen]; exact hc), List.getElem_range] at hcut_c
  obtain ⟨hcc_some, hcc3⟩ := hcut_c
  have hn : 1 ≤ nbins := by
    by_contra hn0
    have h0 : nbins = 0 := by omega
    subst h0
    have hpt : pctTargets 0 = [] := rfl
    rw [hpt] at hcc_some
    have := colCuts_nil_pcts_short m w c _ hcc_some
    omega
  obtain ⟨restp, hrestp⟩ := pctTargets_eq_cons nbins hn
  rw [hrestp] at hcc_some
  have hposcol : ∀ x ∈ m.get_col c, x ≠ F.posInf := by
    intro x hx
    exact hfin x (((List.take_sublist _ _).trans (List.drop_sublist _ _)).subset hx)
  obtain ⟨hcc_pw, hcc_nonan, hcc_ne, hcc_min⟩ :=
    colCuts_props m w restp c (bd.cuts.getD c []) hposcol hcc_some
  have hkbound : c * m.rows + r < m.data.length := by
    have h2 : (c + 1) * m.rows ≤ m.cols * m.rows := Nat.mul_le_mul_right _ (by omega)
    rw [Nat.succ_mul] at h2
    rw [hshape, Nat.mul_comm m.rows m.cols]
    omega
  obtain ⟨hblen, hbidx⟩ := binEntriesAux_spec bd.cuts m.rows m.data 0 bd.binned_data hbins
  have hmb := hbidx (c * m.rows + r) hkbound
  rw [zero_add] at hmb
  have hdiv : (c * m.rows + r) / m.rows = c := by
    have hrows : 0 < m.rows := by omega
    rw [Nat.add_comm, Nat.mul_comm]
    rw [Nat.add_mul_div_left r c hrows, Nat.div_eq_of_lt hr, Nat.zero_add]
  rw [hdiv] at hmb
  have hbin_eq : bd.binned_data.getD (c * m.rows + r) 0 =
      first_greater_than (bd.cuts.getD c []) (m.data.getD (c * m.rows + r) F.nan) :=
    map_bin_some hmb
  obtain ⟨hfle_len, hpre, hsuf⟩ :=
    @first_greater_than_spec (bd.cuts.getD c []) (m.data.getD (c * m.rows + r) F.nan) hcc_pw
  rw [← hbin_eq] at hfle_len hpre hsuf
  have hvmem : m.data.getD (c * m.rows + r) F.nan ∈ m.get_col c :=
    get_col_entry m c r hr hc hshape
  constructor
  · intro hb0
    by_contra hnotnan
    have hvnan : (m.data.getD (c * m.rows + r) F.nan).isNaN = false := by
      revert hnotnan
      cases (m.data.getD (c * m.rows + r) F.nan).isNaN <;> simp
    have hhead := hcc_min _ hvmem hvnan
    have hcc_len_pos : 0 < (bd.cuts.getD c []).length := by omega
    have h0 : fle ((bd.cuts.getD c []).getD 0 F.nan)
        (m.data.getD (c * m.rows + r) F.nan) = false :=
      hsuf 0 (by omega) hcc_len_pos
    have hhd : (bd.cuts.getD c []).headD F.nan = (bd.cuts.getD c []).getD 0 F.nan := by
      cases hcchd : bd.cuts.getD c [] with
      | nil => exact absurd hcchd hcc_ne
      | cons u t => rfl
    rw [hhd] at hhead
    rw [hhead] at h0
    exact Bool.noConfusion h0
  · intro hb1
    have hpre1 : fle ((bd.cuts.getD c []).getD
        (bd.binned_data.getD (c * m.rows + r) 0 - 1) F.nan)
        (m.data.getD (c * m.rows + r) F.nan) = true :=
      hpre _ (by omega)
    refine ⟨hpre1, ?_⟩
    intro hlt
    have hsuf1 : fle ((bd.cuts.getD c []).getD
        (bd.binned_data.getD (c * m.rows + r) 0) F.nan)
        (m.data.getD (c * m.rows + r) F.nan) = false :=
      hsuf _ (le_refl _) hlt
    have hv_nonan : (m.data.getD (c * m.rows + r) F.nan).isNaN = false :=
      not_isNaN_of_fle_left hpre1
    have hcc_b_nonan : ((bd.cuts.getD c []).getD
        (bd.binned_data.getD (c * m.rows + r) 0) F.nan).isNaN = false := by
      apply hcc_nonan
      rw [List.getD_eq_getElem _ _ hlt]
      exact List.getElem_mem _
    refine flt_of_not_fle hv_nonan hcc_b_nonan ?_
    rw [hsuf1]
    exact Bool.noConfusion

/-- Witness for the amended C1 at the counterexample matrix: row 2
(value 3, bin 2) satisfies `cuts[1] = 2 <= 3 < MAX = cuts[2]`. -/
theorem binned_round_trip_witness :
    fle (F.val 2) (F.val 3) = true ∧ flt (F.val 3) F.maxVal = true := by
  have hbm : bin_matrix ⟨[F.val 1, F.val 2, F.val 3, F.val 4], 4, 1⟩ [1, 1, 1, 1] 2 =
      .ok ⟨[1, 2, 2, 2], [[F.val 1, F.val 2, F.maxVal]], [3]⟩ := by
    norm_num [bin_matrix, collectCuts, colCuts, percentiles_or_value, percentiles,
      percentiles_nunique, pnLoop, pctTargets, MatrixF.get_col, fsort,
      List.insertionSort, List.orderedInsert, rleFst, rle, fleTot, dedupConsec,
      bin_matrix_from_cuts, binEntriesAux, map_bin, first_greater_than, fgtAux,
      fle, F.isNaN, List.range_succ]
  have hrt := (binned_round_trip ⟨[F.val 1, F.val 2, F.val 3, F.val 4], 4, 1⟩
    [1, 1, 1, 1] 2 _ hbm
    (by intro x hx; simp at hx; rcases hx with rfl | rfl | rfl | rfl <;> simp)
    (by norm_num) 2 0 (by norm_num) (by norm_num)).2 (by norm_num)
  obtain ⟨h1, h2⟩ := hrt
  exact ⟨h1, h2 (by norm_num)⟩

/-- Witness for the amended C3: a two-value column with one requested
fraction emits a boundary. -/
theorem percentiles_nunique_bounds_witness :
    (percentiles_nunique [F.val 1, F.val 2] [1, 1] [1 / 2]).isSome = true := by
  obtain ⟨p, nu, hsome, h1, h2⟩ := percentiles_nunique_bounds [F.val 1, F.val 2] [1, 1]
    [1 / 2] (by simp)
    (by intro x hx; simp at hx; rcases hx with rfl | rfl <;> rfl)
    (by simp)
    (by intro q hq; simp at hq; rcases hq with rfl | rfl <;> norm_num)
    (by simp)
    (by intro f hf; simp at hf; rw [hf]; norm_num)
  rw [hsome]
  rfl
